import Mathlib

set_option maxRecDepth 400000

/-!
Verification of the w-agent repository core: a shallow embedding in Lean 4 of
the tool executor, tool-calling loop, memory-agent tool path, memory manager
retrieval fan-out, episodic/semantic memory tiers and the Qdrant vector-store
payload handling, together with theorems settling the specification claims.

JavaScript values that flow through the code are modeled as `Json` trees;
JavaScript objects are association lists with set-semantics (`oset`), which
mirrors property assignment and object spread (later writes update a key in
place, new keys are appended), so `Object.entries` order is the list order.
Numbers are modeled as exact rationals; none of the verified code paths
exercise double rounding.
-/

namespace WAgent

/-- A JSON / JavaScript value. `num` carries an exact rational; `obj` carries
fields in property order. -/
inductive Json where
  | null
  | bool (b : Bool)
  | num (q : Rat)
  | str (s : String)
  | arr (elems : List Json)
  | obj (fields : List (String × Json))
deriving Repr

/-- Structural equality test for `Json` (the derive handler does not support
this nested inductive). -/
def Json.beq : Json → Json → Bool
  | .null, .null => true
  | .bool a, .bool b => a = b
  | .num a, .num b => a = b
  | .str a, .str b => a = b
  | .arr a, .arr b => beqList a b
  | .obj a, .obj b => beqFields a b
  | _, _ => false
where
  beqList : List Json → List Json → Bool
    | [], [] => true
    | x :: xs, y :: ys => beq x y && beqList xs ys
    | _, _ => false
  beqFields : List (String × Json) → List (String × Json) → Bool
    | [], [] => true
    | (k, x) :: xs, (k', y) :: ys => k = k' && beq x y && beqFields xs ys
    | _, _ => false

mutual

theorem Json.beq_iff : ∀ a b : Json, Json.beq a b = true ↔ a = b
  | .null, b => by cases b <;> simp [Json.beq]
  | .bool x, b => by cases b <;> simp [Json.beq]
  | .num x, b => by cases b <;> simp [Json.beq]
  | .str x, b => by cases b <;> simp [Json.beq]
  | .arr xs, b => by
    cases b <;> simp [Json.beq]
    exact Json.beqList_iff xs _
  | .obj xs, b => by
    cases b <;> simp [Json.beq]
    exact Json.beqFields_iff xs _

theorem Json.beqList_iff : ∀ xs ys : List Json, Json.beq.beqList xs ys = true ↔ xs = ys
  | [], ys => by cases ys <;> simp [Json.beq.beqList]
  | x :: xs, ys => by
    cases ys with
    | nil => simp [Json.beq.beqList]
    | cons y ys =>
      simp [Json.beq.beqList, Json.beq_iff x y, Json.beqList_iff xs ys]

theorem Json.beqFields_iff :
    ∀ xs ys : List (String × Json), Json.beq.beqFields xs ys = true ↔ xs = ys
  | [], ys => by cases ys <;> simp [Json.beq.beqFields]
  | (k, x) :: xs, ys => by
    cases ys with
    | nil => simp [Json.beq.beqFields]
    | cons p ys =>
      obtain ⟨k', y⟩ := p
      simp [Json.beq.beqFields, Json.beq_iff x y, Json.beqFields_iff xs ys,
        and_assoc]

end

instance : DecidableEq Json := fun a b =>
  decidable_of_iff (Json.beq a b = true) (Json.beq_iff a b)

/-- Property read on a JavaScript object: first (hence, for objects built by
`oset`, the unique) binding of the key. -/
def oget {α : Type} (l : List (String × α)) (k : String) : Option α :=
  match l with
  | [] => none
  | (k', v) :: rest => if k' = k then some v else oget rest k

/-- Property write on a JavaScript object: if the key is present its value is
updated in place, otherwise the binding is appended. -/
def oset {α : Type} (l : List (String × α)) (k : String) (v : α) : List (String × α) :=
  match l with
  | [] => [(k, v)]
  | (k', v') :: rest => if k' = k then (k, v) :: rest else (k', v') :: oset rest k v

/-- Object spread `{...l, ...m}`: merge `m` into `l` by successive writes. -/
def omerge {α : Type} (l m : List (String × α)) : List (String × α) :=
  m.foldl (fun acc p => oset acc p.1 p.2) l

/-- JavaScript truthiness of an (optional) value; `none` models `undefined`. -/
def truthy : Option Json → Bool
  | none => false
  | some Json.null => false
  | some (Json.bool b) => b
  | some (Json.num q) => q ≠ 0
  | some (Json.str s) => s ≠ ""
  | some (Json.arr _) => true
  | some (Json.obj _) => true

/-! ## String scanning

The two tool-call text protocols are extracted by regexes in the source
(`JSON_BLOCK_PATTERN` and `LEGACY_PATTERN`, src/tools/executor.ts).  Both are
"literal, then a lazy/negated-class capture, then a literal" patterns, so a
global `exec` loop is equivalent to repeatedly locating the next occurrence of
the opening literal and then the next occurrence of the closing delimiter. -/

/-- Split a character list at the first occurrence of `pat`, returning the
part before and the part after the occurrence. -/
def splitFirst (pat : List Char) : List Char → Option (List Char × List Char)
  | [] => if pat.isEmpty then some ([], []) else none
  | c :: rest =>
    if pat.isPrefixOf (c :: rest) then some ([], (c :: rest).drop pat.length)
    else
      match splitFirst pat rest with
      | none => none
      | some (a, b) => some (c :: a, b)

/-- Characters trimmed by `String.prototype.trim` (the ASCII subset; the
verified content contains no Unicode spaces). -/
def trimWsChar (c : Char) : Bool :=
  c = ' ' ∨ c = '\t' ∨ c = '\n' ∨ c = '\r' ∨ c.toNat = 11 ∨ c.toNat = 12

/-- `String.prototype.trim` (list-based, so that concrete claims evaluate in
the kernel). -/
def trimJS (s : String) : String :=
  String.mk ((s.toList.dropWhile trimWsChar).reverse.dropWhile trimWsChar).reverse

/-- `String.prototype.toLowerCase` (ASCII; the verified content has no
non-ASCII cased letters). -/
def toLowerJS (s : String) : String :=
  String.mk (s.toList.map Char.toLower)

def splitOnJSAux (sep : List Char) : Nat → List Char → List String
  | 0, cs => [String.mk cs]
  | fuel+1, cs =>
    match splitFirst sep cs with
    | none => [String.mk cs]
    | some (a, b) => String.mk a :: splitOnJSAux sep fuel b

/-- `String.prototype.split` with a non-empty string separator. -/
def splitOnJS (sep : String) (s : String) : List String :=
  splitOnJSAux sep.toList (s.length + 1) s.toList

/-- `Array.prototype.join`. -/
def joinSep (sep : String) : List String → String
  | [] => ""
  | [x] => x
  | x :: xs => x ++ sep ++ joinSep sep xs

/-- `String.prototype.startsWith`. -/
def startsWithJS (s pre : String) : Bool :=
  pre.toList.isPrefixOf s.toList

def toolCallOpen : List Char := "[[TOOL_CALL]]".toList

def toolCallClose : List Char := "[[/TOOL_CALL]]".toList

/-- Bodies of `[[TOOL_CALL]] ... [[/TOOL_CALL]]` blocks, in order, trimmed;
the embedding of the global `JSON_BLOCK_PATTERN.exec` loop (the `\s*`
wrappers around the lazy capture make the captured group the trimmed body). -/
def extractJsonBlocksAux : Nat → List Char → List String
  | 0, _ => []
  | fuel+1, s =>
    match splitFirst toolCallOpen s with
    | none => []
    | some (_, rest) =>
      match splitFirst toolCallClose rest with
      | none => []
      | some (body, rest2) => trimJS (String.mk body) :: extractJsonBlocksAux fuel rest2

def extractJsonBlocks (s : String) : List String :=
  extractJsonBlocksAux (s.length + 1) s.toList

def legacyOpen : List Char := "[TOOL_CALL:".toList

/-- `(name, params)` captures of the legacy `LEGACY_PATTERN` regex
`\[TOOL_CALL:([^:]+):([^\]]+)\]`, in order.  A failed attempt at one
occurrence of the opening literal resumes at the next occurrence, exactly as
the regex engine advancing its start position does (a match can only begin at
an occurrence of the literal). -/
def legacyMatchesAux : Nat → List Char → List (String × String)
  | 0, _ => []
  | fuel+1, s =>
    match splitFirst legacyOpen s with
    | none => []
    | some (_, rest) =>
      match splitFirst [Char.ofNat 58] rest with
      | none => legacyMatchesAux fuel rest
      | some (name, rest2) =>
        if name.isEmpty then legacyMatchesAux fuel rest
        else
          match splitFirst [Char.ofNat 93] rest2 with
          | none => legacyMatchesAux fuel rest
          | some (params, rest3) =>
            if params.isEmpty then legacyMatchesAux fuel rest
            else (String.mk name, String.mk params) :: legacyMatchesAux fuel rest3

def legacyMatches (s : String) : List (String × String) :=
  legacyMatchesAux (s.length + 1) s.toList

/-! ## JSON.parse

An exact-rational recursive-descent embedding of `JSON.parse`.  Divergences
from the JavaScript builtin, none of which are exercised by the verified
paths: numbers are kept exact instead of rounding to binary64, and a `\u`
escape yields one code unit without surrogate pairing. -/

def hexVal (c : Char) : Option Nat :=
  if c.isDigit then some (c.toNat - 48)
  else if 97 ≤ c.toNat ∧ c.toNat ≤ 102 then some (c.toNat - 87)
  else if 65 ≤ c.toNat ∧ c.toNat ≤ 70 then some (c.toNat - 55)
  else none

/-- JSON whitespace: space, tab, line feed, carriage return. -/
def skipWs : List Char → List Char
  | [] => []
  | c :: rest =>
    if c = ' ' ∨ c = '\t' ∨ c = '\n' ∨ c = '\r' then skipWs rest else c :: rest

/-- Parse the remainder of a JSON string literal (after the opening quote),
returning the decoded characters and the rest of the input. -/
def parseJStrAux : Nat → List Char → Option (List Char × List Char)
  | 0, _ => none
  | _, [] => none
  | fuel+1, c :: rest =>
    if c = '"' then some ([], rest)
    else if c = '\\' then
      match rest with
      | [] => none
      | e :: rest2 =>
        let cont := fun (d : Char) (tail : List Char) =>
          match parseJStrAux fuel tail with
          | none => none
          | some (acc, r) => some (d :: acc, r)
        if e = '"' then cont '"' rest2
        else if e = '\\' then cont '\\' rest2
        else if e = '/' then cont '/' rest2
        else if e = 'b' then cont (Char.ofNat 8) rest2
        else if e = 'f' then cont (Char.ofNat 12) rest2
        else if e = 'n' then cont '\n' rest2
        else if e = 'r' then cont '\r' rest2
        else if e = 't' then cont '\t' rest2
        else if e = 'u' then
          match rest2 with
          | h1 :: h2 :: h3 :: h4 :: rest3 =>
            match hexVal h1, hexVal h2, hexVal h3, hexVal h4 with
            | some a, some b, some c', some d =>
              cont (Char.ofNat (((a * 16 + b) * 16 + c') * 16 + d)) rest3
            | _, _, _, _ => none
          | _ => none
        else none
    else if c.toNat < 32 then none
    else
      match parseJStrAux fuel rest with
      | none => none
      | some (acc, r) => some (c :: acc, r)

def takeDigits (s : List Char) : List Char × List Char :=
  match s with
  | [] => ([], [])
  | c :: rest =>
    if c.isDigit then
      let (ds, r) := takeDigits rest
      (c :: ds, r)
    else ([], s)

def digitsToNat (ds : List Char) : Nat :=
  ds.foldl (fun n c => n * 10 + (c.toNat - 48)) 0

/-- Parse a JSON number literal: `-? (0 | [1-9][0-9]*) (.[0-9]+)? ([eE][+-]?[0-9]+)?`. -/
def parseJNum (s : List Char) : Option (Rat × List Char) :=
  let (neg, s1) : Bool × List Char :=
    match s with
    | '-' :: r => (true, r)
    | _ => (false, s)
  match takeDigits s1 with
  | ([], _) => none
  | (ds, s2) =>
    if 1 < ds.length ∧ ds.head? = some '0' then none
    else
      let intPart : Rat := (digitsToNat ds : Nat)
      let fracStep : Option (Rat × List Char) :=
        match s2 with
        | '.' :: r =>
          match takeDigits r with
          | ([], _) => none
          | (fs, s3) => some (intPart + (digitsToNat fs : Rat) / (10 : Rat) ^ fs.length, s3)
        | _ => some (intPart, s2)
      match fracStep with
      | none => none
      | some (mant, s3) =>
        let expStep : Option (Rat × List Char) :=
          match s3 with
          | c :: r =>
            if c = 'e' ∨ c = 'E' then
              let (esign, r2) : Bool × List Char :=
                match r with
                | '-' :: rr => (true, rr)
                | '+' :: rr => (false, rr)
                | _ => (false, r)
              match takeDigits r2 with
              | ([], _) => none
              | (es, s4) =>
                let e : Int := if esign then -(digitsToNat es : Int) else (digitsToNat es : Int)
                some (mant * (10 : Rat) ^ e, s4)
            else some (mant, s3)
          | [] => some (mant, s3)
        match expStep with
        | none => none
        | some (v, s4) => some (if neg then -v else v, s4)

mutual

def parseJ : Nat → List Char → Option (Json × List Char)
  | 0, _ => none
  | fuel+1, s =>
    match skipWs s with
    | [] => none
    | c :: rest =>
      if c = 'n' then
        if "ull".toList.isPrefixOf rest then some (Json.null, rest.drop 3) else none
      else if c = 't' then
        if "rue".toList.isPrefixOf rest then some (Json.bool true, rest.drop 3) else none
      else if c = 'f' then
        if "alse".toList.isPrefixOf rest then some (Json.bool false, rest.drop 4) else none
      else if c = '"' then
        match parseJStrAux (rest.length + 1) rest with
        | none => none
        | some (cs, r) => some (Json.str (String.mk cs), r)
      else if c = '[' then
        match skipWs rest with
        | ']' :: r2 => some (Json.arr [], r2)
        | r1 =>
          match parseJElems fuel r1 with
          | none => none
          | some (es, r2) => some (Json.arr es, r2)
      else if c = '{' then
        match skipWs rest with
        | '}' :: r2 => some (Json.obj [], r2)
        | r1 =>
          match parseJMembers fuel r1 with
          | none => none
          | some (fs, r2) => some (Json.obj (omerge [] fs), r2)
      else
        match parseJNum (c :: rest) with
        | none => none
        | some (q, r) => some (Json.num q, r)

def parseJElems : Nat → List Char → Option (List Json × List Char)
  | 0, _ => none
  | fuel+1, s =>
    match parseJ fuel s with
    | none => none
    | some (v, r) =>
      match skipWs r with
      | ',' :: r2 =>
        match parseJElems fuel r2 with
        | none => none
        | some (es, r3) => some (v :: es, r3)
      | ']' :: r2 => some ([v], r2)
      | _ => none

def parseJMembers : Nat → List Char → Option (List (String × Json) × List Char)
  | 0, _ => none
  | fuel+1, s =>
    match skipWs s with
    | '"' :: rest =>
      match parseJStrAux (rest.length + 1) rest with
      | none => none
      | some (kcs, r) =>
        match skipWs r with
        | ':' :: r2 =>
          match parseJ fuel r2 with
          | none => none
          | some (v, r3) =>
            match skipWs r3 with
            | ',' :: r4 =>
              match parseJMembers fuel r4 with
              | none => none
              | some (fs, r5) => some ((String.mk kcs, v) :: fs, r5)
            | '}' :: r4 => some ([(String.mk kcs, v)], r4)
            | _ => none
        | _ => none
    | _ => none

end

/-- `JSON.parse`: parse a complete JSON document; trailing non-whitespace is
an error.  Duplicate object keys follow last-wins semantics via `omerge`. -/
def jsonParse (s : String) : Option Json :=
  match parseJ (2 * s.length + 2) s.toList with
  | none => none
  | some (v, rest) => if (skipWs rest).isEmpty then some v else none

/-! ## JSON.stringify (used only to serialize a parameters object for
function-style tools).  Rationals reachable here have finite decimal
expansions, rendered exactly. -/

def ratFracDigits : Nat → Rat → String
  | 0, _ => ""
  | fuel+1, q =>
    if q = 0 then ""
    else
      let q10 := q * 10
      let d : Int := q10.floor
      toString d ++ ratFracDigits fuel (q10 - (d : Rat))

def ratDecimalStringNonneg (q : Rat) : String :=
  let ip : Int := q.floor
  let frac := q - (ip : Rat)
  if frac = 0 then toString ip
  else toString ip ++ "." ++ ratFracDigits 40 frac

def ratDecimalString (q : Rat) : String :=
  if q < 0 then "-" ++ ratDecimalStringNonneg (-q) else ratDecimalStringNonneg q

def escapeJChar (c : Char) : String :=
  if c = '"' then "\\\""
  else if c = '\\' then "\\\\"
  else if c = '\n' then "\\n"
  else if c = '\r' then "\\r"
  else if c = '\t' then "\\t"
  else if c = Char.ofNat 8 then "\\b"
  else if c = Char.ofNat 12 then "\\f"
  else if c.toNat < 32 then
    "\\u00" ++ String.mk [hexDigit (c.toNat / 16), hexDigit (c.toNat % 16)]
  else String.mk [c]
where
  hexDigit (n : Nat) : Char := if n < 10 then Char.ofNat (48 + n) else Char.ofNat (87 + n)

def quoteJStr (s : String) : String :=
  "\"" ++ (s.toList.map escapeJChar).foldl (fun a b => a ++ b) "" ++ "\""

mutual

def jsonStringify : Json → String
  | Json.null => "null"
  | Json.bool true => "true"
  | Json.bool false => "false"
  | Json.num q => ratDecimalString q
  | Json.str s => quoteJStr s
  | Json.arr es => "[" ++ jsonStringifyList es ++ "]"
  | Json.obj fs => "\x7b" ++ jsonStringifyFields fs ++ "\x7d"

def jsonStringifyList : List Json → String
  | [] => ""
  | [x] => jsonStringify x
  | x :: xs => jsonStringify x ++ "," ++ jsonStringifyList xs

def jsonStringifyFields : List (String × Json) → String
  | [] => ""
  | [(k, v)] => quoteJStr k ++ ":" ++ jsonStringify v
  | (k, v) :: xs => quoteJStr k ++ ":" ++ jsonStringify v ++ "," ++ jsonStringifyFields xs

end

/-! ## Tool registry and executor (src/tools/registry.ts, src/tools/executor.ts)

A tool body is `Json → Except String String`: `.error m` models the body
throwing an exception whose message is `m`; a function tool takes the input
string.  `ToolRegistry.executeTool` wraps every tool and function invocation
in its own try/catch, returning the error text as an ordinary string, so the
embedded `executeTool` is total. -/

structure ToolCallRequest where
  id : String
  name : String
  arguments : Json
deriving Repr, DecidableEq

structure ToolCallResult where
  id : String
  name : String
  output : String
  error : Option String
  success : Bool
deriving Repr, DecidableEq

structure ToolRegistry where
  tools : List (String × (Json → Except String String))
  functions : List (String × (String → Except String String))

def toolErrorText (name msg : String) : String :=
  "错误：执行工具 \x27" ++ name ++ "\x27 时发生异常: " ++ msg

/-- `ToolRegistry.executeTool`.  `input` models the `string | ToolParameters`
argument: `Json.str` is the string case, anything else the parameters
object. -/
def ToolRegistry.executeTool (reg : ToolRegistry) (name : String) (input : Json) : String :=
  match reg.tools.lookup name with
  | some run =>
    let params := match input with
      | Json.str s => Json.obj [("input", Json.str s)]
      | other => other
    match run params with
    | Except.ok r => r
    | Except.error m => toolErrorText name m
  | none =>
    match reg.functions.lookup name with
    | some f =>
      let inputStr := match input with
        | Json.str s => s
        | other => jsonStringify other
      match f inputStr with
      | Except.ok r => r
      | Except.error m => toolErrorText name m
    | none => "错误：未找到名为 \x27" ++ name ++ "\x27 的工具。"

namespace ToolExecutor

/-- `ToolExecutor.execute`.  The try/catch in the source can only take its
catch branch if `registry.executeTool` itself throws; `executeTool` catches
all tool exceptions internally (returning the error text as its result), so
the embedded call boundary is total and the catch branch is unreachable. -/
def execute (reg : ToolRegistry) (call : ToolCallRequest) : ToolCallResult :=
  { id := call.id
    name := call.name
    output := reg.executeTool call.name call.arguments
    error := none
    success := true }

/-- `ToolExecutor.executeAll`: the sequential for-loop accumulating one
result per call. -/
def executeAll (reg : ToolRegistry) (calls : List ToolCallRequest) : List ToolCallResult :=
  calls.map (execute reg)

/-- `ToolExecutor.parseArguments`: `!argsStr` catches both `undefined` and
the empty string; a parse result that is not a JS object (arrays included)
is replaced by `{}`. -/
def parseArguments (argsStr : Option String) : Json :=
  match argsStr with
  | none => Json.obj []
  | some s =>
    if s = "" then Json.obj []
    else
      match jsonParse s with
      | some (Json.obj o) => Json.obj o
      | some (Json.arr a) => Json.arr a
      | _ => Json.obj []

/-- A provider-native tool call as found on the assistant message
(`tool_calls[i]`): id, function name, and the JSON-string arguments. -/
structure RawToolCall where
  id : String
  name : String
  argumentsStr : String
deriving Repr, DecidableEq

/-- `ToolExecutor.parseFromOpenAIResponse`, applied to the `tool_calls` list
of the response's first choice. -/
def parseFromOpenAIResponse (tcs : List RawToolCall) : List ToolCallRequest :=
  tcs.map (fun tc => ⟨tc.id, tc.name, parseArguments (some tc.argumentsStr)⟩)

/-- `ToolExecutor.generateCallId` for a given `Date.now()` value and counter
value (the source pre-increments the counter before use). -/
def generateCallId (now counter : Nat) : String :=
  "call_" ++ toString now ++ "_" ++ toString counter

/-- Canonical-decimal test modeling `!isNaN(num) && value === String(num)`
for `num = parseFloat(value)`: the string is kept as a number exactly when it
is the canonical rendering of its own numeric value.  The digit-count bounds
(≤ 15 integer digits, ≤ 6 fraction digits) restrict the model to the regime
where binary64 round-tripping is exact, which covers every literal the
protocol is used with. -/
def isCanonicalDec (s : String) : Bool :=
  let cs := s.toList
  let (neg, cs1) : Bool × List Char :=
    match cs with
    | '-' :: r => (true, r)
    | _ => (false, cs)
  match takeDigits cs1 with
  | ([], _) => false
  | (ds, rest) =>
    (decide (ds.length ≤ 15)) &&
    (decide (ds.length = 1 ∨ ds.head? ≠ some '0')) &&
    (match rest with
     | [] => !(neg && decide (ds = ['0']))
     | '.' :: fr =>
       match takeDigits fr with
       | ([], _) => false
       | (fs, rest2) =>
         decide (rest2 = []) && decide (fs.length ≤ 6) && decide (fs.getLast? ≠ some '0')
     | _ => false)

/-- Numeric value of a canonical decimal string. -/
def decToRat (s : String) : Rat :=
  let cs := s.toList
  let (neg, cs1) : Bool × List Char :=
    match cs with
    | '-' :: r => (true, r)
    | _ => (false, cs)
  let (ds, rest) := takeDigits cs1
  let ip : Rat := (digitsToNat ds : Nat)
  let v : Rat :=
    match rest with
    | '.' :: fr =>
      let (fs, _) := takeDigits fr
      ip + (digitsToNat fs : Rat) / (10 : Rat) ^ fs.length
    | _ => ip
  if neg then -v else v

/-- `ToolExecutor.parseValue`: number if the literal round-trips through
`parseFloat`, then case-insensitive booleans, else the raw string. -/
def parseValue (value : String) : Json :=
  if isCanonicalDec value then Json.num (decToRat value)
  else if toLowerJS value = "true" then Json.bool true
  else if toLowerJS value = "false" then Json.bool false
  else Json.str value

/-- The `key=value,key2=value2` and single-parameter branches of
`parseLegacyParameters`. -/
def parseLegacyKV (paramStr : String) : Json :=
  if paramStr.toList.contains '=' then
    Json.obj <|
      (splitOnJS "," paramStr).foldl
        (fun params pair =>
          match splitOnJS "=" pair with
          | [] => params
          | key :: valueParts =>
            if key ≠ "" ∧ valueParts ≠ [] then
              oset params (trimJS key) (parseValue (trimJS (joinSep "=" valueParts)))
            else params)
        []
  else
    Json.obj
      [("input", Json.str paramStr), ("query", Json.str paramStr),
        ("expression", Json.str paramStr)]

/-- `ToolExecutor.parseLegacyParameters`: JSON if the trimmed string starts
with a brace (falling through on parse failure), else `key=value` pairs, else
one free-form string bound to `input`, `query` and `expression`. -/
def parseLegacyParameters (paramStr : String) : Json :=
  if startsWithJS (trimJS paramStr) "\x7b" then
    match jsonParse paramStr with
    | some v => v
    | none => parseLegacyKV paramStr
  else parseLegacyKV paramStr

/-- `(name, arguments)` of one JSON block if it parses and has a truthy
`name` (the `ToolCallRequest` interface types `name` as a string, so the
model requires the field to be a non-empty string); `arguments ?? {}`
replaces a `null` or missing field with the empty object. -/
def parseBlockNameArgs (b : String) : Option (String × Json) :=
  match jsonParse b with
  | none => none
  | some (Json.obj fields) =>
    match oget fields "name" with
    | some (Json.str s) =>
      if s = "" then none
      else
        some (s,
          match oget fields "arguments" with
          | none => Json.obj []
          | some Json.null => Json.obj []
          | some v => v)
    | _ => none
  | some _ => none

/-- Number successfully parsed calls with freshly generated ids (the counter
is incremented once per successful parse, as `generateCallId` is only called
on the push path). -/
def assignIds (now : Nat) : Nat → List (String × Json) → List ToolCallRequest × Nat
  | c, [] => ([], c)
  | c, (n, a) :: rest =>
    let (l, c') := assignIds now (c + 1) rest
    (⟨generateCallId now (c + 1), n, a⟩ :: l, c')

/-- `ToolExecutor.parseFromText`, also returning the updated call counter:
JSON-block protocol first; the legacy protocol only when no JSON block
produced a call. -/
def parseFromTextC (now counter : Nat) (text : String) : List ToolCallRequest × Nat :=
  let jsonCalls := (extractJsonBlocks text).filterMap parseBlockNameArgs
  if jsonCalls.isEmpty then
    assignIds now counter
      ((legacyMatches text).map (fun p => (trimJS p.1, parseLegacyParameters (trimJS p.2))))
  else assignIds now counter jsonCalls

def parseFromText (now counter : Nat) (text : String) : List ToolCallRequest :=
  (parseFromTextC now counter text).1

end ToolExecutor

/-! ## Tool-calling loop (src/core/tool-calling-loop.ts)

The LLM endpoint is an external HTTP service; it is modeled as an oracle of
deterministic functions of the request message list (any concrete behaviour
of the service during one run is some choice of oracle).  `chatWithTools`
models a chat-completions request with `tool_choice:"auto"` (`none` content
models a `null` assistant content), `chatForced` the final request with
`tool_choice:"none"`, and `invoke` a plain completion. -/

structure ChatMsg where
  role : String
  content : String
  tool_call_id : Option String := none
  tool_calls : List ToolExecutor.RawToolCall := []
deriving Repr, DecidableEq

namespace ToolExecutor

/-- `ToolExecutor.formatAsToolMessage`; interpolating an `undefined` error
renders the string `undefined`. -/
def formatAsToolMessage (r : ToolCallResult) : ChatMsg :=
  { role := "tool"
    content := if r.success then r.output else "错误: " ++ r.error.getD "undefined"
    tool_call_id := some r.id }

/-- `ToolExecutor.formatAsText`. -/
def formatAsText (r : ToolCallResult) : String :=
  if r.success then "[工具 " ++ r.name ++ " 返回]: " ++ r.output
  else "[工具 " ++ r.name ++ " 执行失败]: " ++ r.error.getD "undefined"

end ToolExecutor

/-- Function-calling schema rendered for the model (src/tools/base.ts).  Only
its presence is observable inside the loop (`toolSchemas.length > 0` and the
request payload), so the parameter tree is not needed by any claim. -/
structure FunctionSchema where
  name : String
  description : String
deriving Repr, DecidableEq

structure LLMOracle where
  chatWithTools : List ChatMsg → Option String × List ToolExecutor.RawToolCall
  chatForced : List ChatMsg → Option String
  invoke : List ChatMsg → String

structure ToolCallingStep where
  step : Nat
  toolCalls : List ToolCallRequest
  results : List ToolCallResult
  llmContent : String
deriving Repr, DecidableEq

structure LoopResult where
  finalText : String
  trace : List ToolCallingStep
  stepsUsed : Nat
  reachedMaxSteps : Bool
deriving Repr, DecidableEq

/-- The message-list extension of one native-mode tool step: the assistant
message carrying the text and the verbatim `tool_calls`, then one `tool`
message per result, in order. -/
def nativeNextMsgs (reg : ToolRegistry) (msgs : List ChatMsg) (llmContent : String)
    (rawCalls : List ToolExecutor.RawToolCall) : List ChatMsg :=
  (msgs ++ [{ role := "assistant", content := llmContent, tool_calls := rawCalls }]) ++
    (ToolExecutor.executeAll reg (ToolExecutor.parseFromOpenAIResponse rawCalls)).map
      ToolExecutor.formatAsToolMessage

/-- The message-list extension of one text-mode tool step: the assistant
message, then a single synthetic `user` message holding all formatted results
and the continuation instruction. -/
def textNextMsgs (reg : ToolRegistry) (msgs : List ChatMsg) (llmContent : String)
    (calls : List ToolCallRequest) : List ChatMsg :=
  (msgs ++ [{ role := "assistant", content := llmContent }]) ++
    [{ role := "user",
       content := "工具执行结果：\n" ++
         joinSep "\n\n" ((ToolExecutor.executeAll reg calls).map ToolExecutor.formatAsText) ++
         "\n\n请基于这些结果继续回答。" }]

/-- The `while (stepsUsed < maxSteps)` body of `runToolCallingLoop`, as a
recursion on the remaining step budget.  `k` is the number of steps already
used, `counter` the executor's call counter (threaded because text-protocol
ids consume it), `native` the effective branch flag
`useNativeToolCalling && toolSchemas.length > 0`. -/
def loopGo (o : LLMOracle) (reg : ToolRegistry) (native : Bool) (now : Nat) :
    Nat → Nat → List ChatMsg → Nat → LoopResult
  | 0, _counter, msgs, k =>
    { finalText := if native then (o.chatForced msgs).getD "" else o.invoke msgs
      trace := []
      stepsUsed := k
      reachedMaxSteps := true }
  | fuel+1, counter, msgs, k =>
    if native then
      let resp := o.chatWithTools msgs
      let llmContent := resp.1.getD ""
      if resp.2.isEmpty then
        { finalText := llmContent
          trace := [⟨k + 1, [], [], llmContent⟩]
          stepsUsed := k + 1
          reachedMaxSteps := false }
      else
        let toolCalls := ToolExecutor.parseFromOpenAIResponse resp.2
        let results := ToolExecutor.executeAll reg toolCalls
        let r := loopGo o reg native now fuel counter
          (nativeNextMsgs reg msgs llmContent resp.2) (k + 1)
        { finalText := r.finalText
          trace := ⟨k + 1, toolCalls, results, llmContent⟩ :: r.trace
          stepsUsed := r.stepsUsed
          reachedMaxSteps := r.reachedMaxSteps }
    else
      let llmContent := o.invoke msgs
      let parsed := ToolExecutor.parseFromTextC now counter llmContent
      if parsed.1.isEmpty then
        { finalText := llmContent
          trace := [⟨k + 1, [], [], llmContent⟩]
          stepsUsed := k + 1
          reachedMaxSteps := false }
      else
        let results := ToolExecutor.executeAll reg parsed.1
        let r := loopGo o reg native now fuel parsed.2
          (textNextMsgs reg msgs llmContent parsed.1) (k + 1)
        { finalText := r.finalText
          trace := ⟨k + 1, parsed.1, results, llmContent⟩ :: r.trace
          stepsUsed := r.stepsUsed
          reachedMaxSteps := r.reachedMaxSteps }

/-- `runToolCallingLoop`: map the caller's messages to plain
`{role, content}` records, then run the loop with a fresh step count. -/
def runToolCallingLoop (o : LLMOracle) (reg : ToolRegistry) (useNative : Bool)
    (schemas : List FunctionSchema) (maxSteps : Nat) (now : Nat)
    (messages : List ChatMsg) : LoopResult :=
  let native := useNative && !schemas.isEmpty
  let openaiMessages : List ChatMsg :=
    messages.map (fun m => { role := m.role, content := m.content })
  loopGo o reg native now maxSteps 0 openaiMessages 0

/-! ## MemoryAgent tool path (src/agents/memory-agent.ts)

`MemoryAgent` has its own private legacy-only tool-call handling; the LLM is
modeled as a function of the invocation index and the message list, and the
embedded operations additionally return the number of invocations made, which
instruments the (otherwise unobservable) call count. -/

namespace MemoryAgent

structure MAToolCall where
  toolName : String
  parameters : String
  original : String
deriving Repr, DecidableEq

/-- `MemoryAgent.parseToolCalls`: the same `\[TOOL_CALL:([^:]+):([^\]]+)\]`
regex; `original` is the whole match. -/
def parseToolCalls (text : String) : List MAToolCall :=
  (legacyMatches text).map fun p =>
    { toolName := trimJS p.1
      parameters := trimJS p.2
      original := "[TOOL_CALL:" ++ p.1 ++ ":" ++ p.2 ++ "]" }

/-- `MemoryAgent.parseParameters`: `key=value` pairs with raw string values
(no JSON branch and no primitive parsing here), else the free-form string
bound to `query` and `expression` only. -/
def parseParameters (paramStr : String) : Json :=
  if paramStr.toList.contains '=' then
    Json.obj <|
      (splitOnJS "," paramStr).foldl
        (fun params pair =>
          match splitOnJS "=" pair with
          | [] => params
          | key :: valueParts =>
            if key ≠ "" ∧ valueParts ≠ [] then
              oset params (trimJS key) (Json.str (trimJS (joinSep "=" valueParts)))
            else params)
        []
  else Json.obj [("query", Json.str paramStr), ("expression", Json.str paramStr)]

/-- `MemoryAgent.executeToolCall` with a registry present; `executeTool` is
total (its try/catch is internal), so the agent-side catch is unreachable and
the result is always the registry's string. -/
def executeToolCall (reg : ToolRegistry) (tc : MAToolCall) : String :=
  reg.executeTool tc.toolName (parseParameters tc.parameters)

/-- `String.prototype.replace` with a string pattern: replace the first
occurrence only.  (Replacement-pattern expansion of `$` sequences is not
modeled; no verified input contains them.) -/
def replaceFirst (s target repl : String) : String :=
  match splitFirst target.toList s.toList with
  | none => s
  | some (a, b) => String.mk a ++ repl ++ String.mk b

/-- `MemoryAgent.runWithTools`: one model invocation, legacy-protocol parse,
execute each call and splice its result into the response text in place of
the call marker.  `n` is the number of model invocations made so far; the
second component of the result is the updated count. -/
def runWithTools (reg : ToolRegistry) (llm : Nat → List ChatMsg → String)
    (n : Nat) (msgs : List ChatMsg) : String × Nat :=
  let response := llm n msgs
  let toolCalls := parseToolCalls response
  if toolCalls.isEmpty then (response, n + 1)
  else
    (toolCalls.foldl
      (fun acc tc =>
        replaceFirst acc tc.original
          ("\n工具 " ++ tc.toolName ++ " 返回: " ++ executeToolCall reg tc ++ "\n"))
      response,
    n + 1)

/-- Step 3 of `MemoryAgent.run` (the model-invocation dispatch on the
already-augmented message list): with tool calling enabled and a registry
present, `runWithTools`; otherwise a single `llm.invoke`. -/
def runInvoke (enableToolCalling : Bool) (reg : Option ToolRegistry)
    (llm : Nat → List ChatMsg → String) (msgs : List ChatMsg) : String × Nat :=
  match reg with
  | some r =>
    if enableToolCalling then runWithTools r llm 0 msgs else (llm 0 msgs, 1)
  | none => (llm 0 msgs, 1)

end MemoryAgent

/-! ## Memory items and the manager's cross-tier retrieval
(src/memory/base.ts, src/memory/manager.ts)

`importance` and `timestamp` (epoch milliseconds) are exact rationals; the
verified paths only copy and compare them. -/

structure MemoryItem where
  id : String
  content : String
  memoryType : String
  userId : String
  timestamp : Rat
  importance : Rat
  metadata : List (String × Json)
deriving Repr, DecidableEq

/-- One enabled memory tier as seen by `retrieveMemories`: a retrieval
function of the query and the per-type limit; `.error` models the tier
throwing. -/
abbrev Tier := String → Nat → Except String (List MemoryItem)

/-- `Math.max(1, Math.floor(limit / memoryTypes.length))` (natural-number
division is the floor). -/
def perTypeLimit (limit n : Nat) : Nat := max 1 (limit / n)

/-- Ceiling division, used only by the specification-worded variant below. -/
def ceilDiv (a b : Nat) : Nat := (a + b - 1) / b

/-- Stable insertion into a list sorted by importance descending: the new
element goes after strictly greater elements and before equal ones, which is
exactly the stable-sort placement for an element that originally preceded the
already-sorted ones. -/
def insertDesc (x : MemoryItem) : List MemoryItem → List MemoryItem
  | [] => [x]
  | y :: ys => if x.importance < y.importance then y :: insertDesc x ys else x :: y :: ys

/-- `allResults.sort((a, b) => b.importance - a.importance)`: a stable sort
by importance descending (ECMAScript sorts are stable, and a stable sort is
determined by the comparator alone). -/
def sortByImportanceDesc (l : List MemoryItem) : List MemoryItem :=
  l.foldr insertDesc []

/-- `MemoryManager.retrieveMemories` over the enabled tiers: fan out with the
per-type limit, drop results of throwing tiers (the catch only logs), sort by
importance descending, truncate to `limit`. -/
def MemoryManager.retrieveMemories (tiers : List Tier) (query : String) (limit : Nat) :
    List MemoryItem :=
  let k := perTypeLimit limit tiers.length
  let allResults := tiers.foldl
    (fun acc t =>
      match t query k with
      | Except.ok l => acc ++ l
      | Except.error _ => acc)
    []
  (sortByImportanceDesc allResults).take limit

/-- Modelled from the spec for comparison with the code: the same fan-out but
with `perTypeLimit = ⌈limit / |tiers|⌉` as §4.9 of the spec states. -/
def MemoryManager.retrieveMemoriesSpec (tiers : List Tier) (query : String) (limit : Nat) :
    List MemoryItem :=
  let k := ceilDiv limit tiers.length
  let allResults := tiers.foldl
    (fun acc t =>
      match t query k with
      | Except.ok l => acc ++ l
      | Except.error _ => acc)
    []
  (sortByImportanceDesc allResults).take limit

/-! ## Episodic memory (src/memory/types/episodic.ts) and the Qdrant payload
(QdrantVectorStore.addVectors)

For the forgetting policy the modeled configuration is
`enableVectorStore = false`, under which `remove` runs synchronously (with a
vector store present the un-awaited `remove` defers the same deletions to a
microtask; the settled state and the returned count are identical). -/

structure Episode where
  episodeId : String
  userId : String
  sessionId : String
  timestamp : Rat
  content : String
  context : Json
  outcome : Option Json
  importance : Rat
deriving Repr, DecidableEq

structure EpState where
  memories : List (String × MemoryItem)
  episodes : List Episode
  sessions : List (String × List String)
deriving Repr, DecidableEq

/-- `Map.prototype.delete`: drop the (unique) binding of the key. -/
def eraseKey {α : Type} : List (String × α) → String → List (String × α)
  | [], _ => []
  | (k, v) :: rest, key => if k = key then rest else (k, v) :: eraseKey rest key

/-- The session-index part of `EpisodicMemory.remove`: splice the id out of
the first session containing it, dropping the session when it empties, then
break. -/
def removeIdFromSessions : List (String × List String) → String → List (String × List String)
  | [], _ => []
  | (sid, ids) :: rest, id =>
    if ids.contains id then
      let ids' := ids.erase id
      if ids'.isEmpty then rest else (sid, ids') :: rest
    else (sid, ids) :: removeIdFromSessions rest id

/-- `findIndex` + `splice`: drop the first episode with the given id. -/
def removeEpisode : List Episode → String → List Episode
  | [], _ => []
  | e :: rest, id => if e.episodeId = id then rest else e :: removeEpisode rest id

/-- `EpisodicMemory.remove` (vector store disabled): update the session
index, the episode list and the memory map; the Bool is `memories.delete`'s
result. -/
def EpisodicMemory.remove (st : EpState) (id : String) : EpState × Bool :=
  ({ memories := eraseKey st.memories id
     episodes := removeEpisode st.episodes id
     sessions := removeIdFromSessions st.sessions id },
   (st.memories.lookup id).isSome)

inductive ForgetStrategy where
  | importance_based
  | time_based
  | capacity_based
deriving Repr, DecidableEq

/-- `EpisodicMemory.forget`: only `importance_based` has a body — it removes
every item whose importance is below the threshold and counts them; the
other two strategies fall through with zero removals (`_maxAgeDays` is the
deliberately unused parameter of the source). -/
def EpisodicMemory.forget (st : EpState) (strategy : ForgetStrategy)
    (threshold : Rat) (_maxAgeDays : Nat) : EpState × Nat :=
  match strategy with
  | ForgetStrategy.importance_based =>
    let victims := st.memories.filter (fun p => p.2.importance < threshold)
    (victims.foldl (fun s p => (EpisodicMemory.remove s p.1).1) st, victims.length)
  | _ => (st, 0)

/-- Modelled from the spec for comparison with the code (§4.6: "drop items
older than D days"): remove every item whose age at `now` exceeds
`maxAgeDays` days and return the count. -/
def EpisodicMemory.forgetTimeBasedSpec (st : EpState) (now : Rat) (maxAgeDays : Nat) :
    EpState × Nat :=
  let victims := st.memories.filter
    (fun p => (maxAgeDays : Rat) * 86400000 < now - p.2.timestamp)
  (victims.foldl (fun s p => (EpisodicMemory.remove s p.1).1) st, victims.length)

/-- Stable insertion into a list of `(id, importance)` pairs sorted by
importance ascending (for the spec-worded capacity policy below). -/
def insertAscImp (x : String × Rat) : List (String × Rat) → List (String × Rat)
  | [] => [x]
  | y :: ys => if y.2 < x.2 then y :: insertAscImp x ys else x :: y :: ys

def sortAscImp (l : List (String × Rat)) : List (String × Rat) :=
  l.foldr insertAscImp []

/-- Modelled from the spec for comparison with the code (§4.6: "evict
lowest-importance until ≤ target"): remove the lowest-importance items until
at most `target` remain. -/
def EpisodicMemory.forgetCapacityBasedSpec (st : EpState) (target : Nat) : EpState × Nat :=
  let excess := st.memories.length - target
  let victims := (sortAscImp (st.memories.map (fun p => (p.1, p.2.importance)))).take excess
  (victims.foldl (fun s p => (EpisodicMemory.remove s p.1).1) st, victims.length)

/-! ### The vector payload written by `add` and read back by
`rebuildFromPayload` -/

/-- `(item.metadata.sessionId as string) ?? "default_session"` of
`EpisodicMemory.add`. -/
def episodicSessionId (item : MemoryItem) : String :=
  match oget item.metadata "sessionId" with
  | some (Json.str s) => s
  | _ => "default_session"

/-- The payload object literal of `EpisodicMemory.add` (the spread of
`item.metadata` comes last). -/
def episodicPayload (item : MemoryItem) : List (String × Json) :=
  omerge
    [("memory_id", Json.str item.id), ("user_id", Json.str item.userId),
      ("memory_type", Json.str "episodic"),
      ("session_id", Json.str (episodicSessionId item)),
      ("content", Json.str item.content), ("importance", Json.num item.importance),
      ("timestamp", Json.num item.timestamp)]
    item.metadata

/-- The payload object literal of `SemanticMemory.add` (no `session_id`). -/
def semanticPayload (item : MemoryItem) : List (String × Json) :=
  omerge
    [("memory_id", Json.str item.id), ("user_id", Json.str item.userId),
      ("memory_type", Json.str "semantic"),
      ("content", Json.str item.content), ("importance", Json.num item.importance),
      ("timestamp", Json.num item.timestamp)]
    item.metadata

/-- `QdrantVectorStore.addVectors` payload construction:
`{ ...metadata[i], timestamp: Date.now(), added_at: new Date().toISOString() }` —
the spread comes first, so the `timestamp` the tier supplied is overwritten
in place with the insertion wall-clock time, and `added_at` is appended. -/
def addVectorsPayload (metadata : List (String × Json)) (now : Rat) (addedAtIso : String) :
    List (String × Json) :=
  oset (oset (omerge [] metadata) "timestamp" (Json.num now)) "added_at" (Json.str addedAtIso)

/-- The fields `rebuildFromPayload` extracts directly rather than re-homing
into `metadata`. -/
def knownFields : List String :=
  ["memory_id", "content", "user_id", "importance", "timestamp", "memory_type"]

/-- `rebuildFromPayload` (episodic.ts and semantic.ts are textually identical
up to the hard-coded `memoryType`, passed here as `mt`).  `nowFallback` is
the `new Date()` taken when the payload carries no truthy timestamp.
Payloads written by `add` always carry string `memory_id`/`content`/`user_id`
and numeric `importance`/`timestamp`; the TS casts on ill-typed payloads are
outside the model. -/
def rebuildFromPayload (mt : String) (nowFallback : Rat)
    (payload : List (String × Json)) : Option MemoryItem :=
  match oget payload "memory_id", oget payload "content" with
  | some (Json.str mid), some (Json.str c) =>
    if mid = "" ∨ c = "" then none
    else
      let userId := match oget payload "user_id" with
        | some (Json.str u) => u
        | _ => "unknown"
      let importance := match oget payload "importance" with
        | some (Json.num q) => q
        | _ => (1 : Rat) / 2
      let timestamp := match oget payload "timestamp" with
        | some (Json.num q) => if q = 0 then nowFallback else q
        | _ => nowFallback
      some
        { id := mid, content := c, memoryType := mt, userId := userId
          timestamp := timestamp, importance := importance
          metadata := payload.filter (fun p => !(knownFields.contains p.1)) }
  | _, _ => none

/-- The result item pushed by the vector branch of `retrieve`:
`{ ...memory, metadata: { ...memory.metadata, relevanceScore: hit.score,
source: "vector" } }`. -/
def taggedVector (m : MemoryItem) (score : Rat) : MemoryItem :=
  { m with
    metadata :=
      oset (oset (omerge [] m.metadata) "relevanceScore" (Json.num score))
        "source" (Json.str "vector") }

/-- One ANN hit as returned by `QdrantVectorStore.searchSimilar`
(`hit.metadata` is the stored payload). -/
structure VectorHit where
  score : Rat
  payload : List (String × Json)
deriving Repr, DecidableEq

/-- The `options.minImportance && memory.importance < options.minImportance`
guard: a supplied `0` is falsy and disables the filter. -/
def minImpActive (minImp : Option Rat) (imp : Rat) : Bool :=
  match minImp with
  | some q => decide (q ≠ 0 ∧ imp < q)
  | none => false

/-- The `timeRange` guard of the episodic retrieve (absent for semantic). -/
def timeRangeExcludes (tr : Option (Rat × Rat)) (ts : Rat) : Bool :=
  match tr with
  | some (s, e) => decide (ts < s ∨ e < ts)
  | none => false

/-- The per-hit loop of the vector branch of `retrieve` (episodic.ts; the
semantic loop is the same with `mt = "semantic"` and no `timeRange`): skip
falsy or already-seen ids, take the item from the in-memory map or rebuild it
from the payload and cache it, apply the filters, and push the tagged item.
Returns the pushed results in order and the updated map. -/
def processVectorHits (mt : String) (nowFallback : Rat) (minImp : Option Rat)
    (tr : Option (Rat × Rat)) :
    List VectorHit → List String → List (String × MemoryItem) →
      List MemoryItem × List (String × MemoryItem)
  | [], _, mems => ([], mems)
  | hit :: rest, seen, mems =>
    match oget hit.payload "memory_id" with
    | some (Json.str memId) =>
      if memId ≠ "" ∧ ¬ seen.contains memId then
        let seen' := memId :: seen
        let stepOn := fun (memory? : Option MemoryItem) (mems' : List (String × MemoryItem)) =>
          match memory? with
          | some memory =>
            if minImpActive minImp memory.importance ∨
                timeRangeExcludes tr memory.timestamp then
              processVectorHits mt nowFallback minImp tr rest seen' mems'
            else
              let (rs, ms) := processVectorHits mt nowFallback minImp tr rest seen' mems'
              (taggedVector memory hit.score :: rs, ms)
          | none => processVectorHits mt nowFallback minImp tr rest seen' mems'
        match mems.lookup memId with
        | some memory => stepOn (some memory) mems
        | none =>
          match rebuildFromPayload mt nowFallback hit.payload with
          | some memory => stepOn (some memory) (oset mems memory.id memory)
          | none => stepOn none mems
      else processVectorHits mt nowFallback minImp tr rest seen mems
    | _ => processVectorHits mt nowFallback minImp tr rest seen mems

/-! ## Semantic memory (src/memory/types/semantic.ts)

Only the state touched by the verified operations is modeled: the item map,
the concept index and the vector collection (a point per memory id, holding
the embedded vector and the payload).  The entity/relation caches and the
graph store are not read or written by `update`. -/

structure VPoint where
  vec : List Rat
  payload : List (String × Json)
deriving Repr, DecidableEq

structure SemState where
  memories : List (String × MemoryItem)
  conceptIndex : List (String × List String)
  vector : List (String × VPoint)
deriving Repr, DecidableEq

/-- Is `c` matched by the regex class `\s`? (The JS class also matches
`\f`, `\v` and Unicode spaces, none of which occur in the verified
content.) -/
def isWsJS (c : Char) : Bool :=
  c = ' ' ∨ c = '\t' ∨ c = '\n' ∨ c = '\r'

def dropWsJS : List Char → List Char
  | [] => []
  | c :: rest => if isWsJS c then dropWsJS rest else c :: rest

/-- `content.split(/\s+/)`: split on maximal whitespace runs, with an empty
leading (resp. trailing) field when the string starts (resp. ends) with
whitespace. -/
def splitWsAux : Nat → List Char → List Char → List String
  | 0, acc, _ => [String.mk acc.reverse]
  | _, acc, [] => [String.mk acc.reverse]
  | fuel+1, acc, c :: rest =>
    if isWsJS c then String.mk acc.reverse :: splitWsAux fuel [] (dropWsJS rest)
    else splitWsAux fuel (c :: acc) rest

def splitWsJS (s : String) : List String :=
  splitWsAux (s.length + 1) [] s.toList

/-- `conceptIndex.get(word).add(id)` with `Map.set` on a fresh word: sets and
maps keep insertion order, so a fresh word or id is appended. -/
def addToIndex (idx : List (String × List String)) (word id : String) :
    List (String × List String) :=
  match idx with
  | [] => [(word, [id])]
  | (w, ids) :: rest =>
    if w = word then (w, if id ∈ ids then ids else ids ++ [id]) :: rest
    else (w, ids) :: addToIndex rest word id

/-- `ids.delete(id)`, dropping the word when its id set empties. -/
def removeIdFromIndex (idx : List (String × List String)) (word id : String) :
    List (String × List String) :=
  match idx with
  | [] => []
  | (w, ids) :: rest =>
    if w = word then
      if ids.erase id = [] then rest else (w, ids.erase id) :: rest
    else (w, ids) :: removeIdFromIndex rest word id

/-- `SemanticMemory.indexConcepts`: index every lower-cased whitespace-split
word of length > 2. -/
def SemanticMemory.indexConcepts (idx : List (String × List String)) (m : MemoryItem) :
    List (String × List String) :=
  (splitWsJS (toLowerJS m.content)).foldl
    (fun i w => if 2 < w.length then addToIndex i w m.id else i) idx

/-- `SemanticMemory.removeFromIndex`: delete the id under every word of the
content (no length filter in the source here). -/
def SemanticMemory.removeFromIndex (idx : List (String × List String)) (m : MemoryItem) :
    List (String × List String) :=
  (splitWsJS (toLowerJS m.content)).foldl (fun i w => removeIdFromIndex i w m.id) idx

/-- `SemanticMemory.update`.  `if (updates.content)` is a truthiness test, so
only a non-empty content string triggers the re-indexing; the vector
collection is never touched (no re-embedding).  The updated item is built by
`createMemoryItem`, i.e. `MemoryItemSchema.parse`, whose zod
`importance ∈ [0,1]` bound throws a `ZodError` for an out-of-range
importance; `update` has no try/catch, so the exception propagates after
`removeFromIndex` already ran on the content path — `Except.error` carries
the state at the throw, with the half-mutated index, the item map and the
vector collection unchanged. -/
def SemanticMemory.update (st : SemState) (memoryId : String) (content? : Option String)
    (importance? : Option Rat) (metadata? : Option (List (String × Json))) :
    Except SemState (SemState × Bool) :=
  match st.memories.lookup memoryId with
  | none => Except.ok (st, false)
  | some memory =>
    let contentTruthy : Bool := match content? with
      | some c => decide (c ≠ "")
      | none => false
    let idx1 := if contentTruthy then SemanticMemory.removeFromIndex st.conceptIndex memory
      else st.conceptIndex
    let newImportance := importance?.getD memory.importance
    if newImportance < 0 ∨ 1 < newImportance then
      Except.error { st with conceptIndex := idx1 }
    else
      let updated : MemoryItem :=
        { memory with
          content := content?.getD memory.content
          importance := newImportance
          metadata := omerge memory.metadata (metadata?.getD []) }
      let idx2 := if contentTruthy then SemanticMemory.indexConcepts idx1 updated else idx1
      Except.ok
        ({ st with
            memories := oset st.memories memoryId updated
            conceptIndex := idx2 },
          true)

/-- The semantic-memory state as the caller observes it after `update`
returns or throws: the `ok` state, or the state the thrown `ZodError` leaves
behind. -/
def SemanticMemory.updateState (r : Except SemState (SemState × Bool)) : SemState :=
  match r with
  | Except.ok p => p.1
  | Except.error s => s

instance {ε α : Type} [DecidableEq ε] [DecidableEq α] : DecidableEq (Except ε α) := fun x y =>
  match x, y with
  | Except.ok a, Except.ok b =>
    if h : a = b then Decidable.isTrue (by rw [h])
    else Decidable.isFalse (by intro hc; injection hc; contradiction)
  | Except.error a, Except.error b =>
    if h : a = b then Decidable.isTrue (by rw [h])
    else Decidable.isFalse (by intro hc; injection hc; contradiction)
  | Except.ok _, Except.error _ => Decidable.isFalse (by intro hc; injection hc)
  | Except.error _, Except.ok _ => Decidable.isFalse (by intro hc; injection hc)

/-- Modelled from the spec for comparison with the code (§4.7: "on content
change, remove old index entries, rewrite vector"): as `update`, but a
content change also re-embeds the new content and rewrites the stored
point. -/
def SemanticMemory.updateSpec (embed : String → List Rat) (st : SemState)
    (memoryId : String) (content? : Option String) (importance? : Option Rat)
    (metadata? : Option (List (String × Json))) : SemState × Bool :=
  match st.memories.lookup memoryId with
  | none => (st, false)
  | some memory =>
    let contentTruthy : Bool := match content? with
      | some c => decide (c ≠ "")
      | none => false
    let idx1 := if contentTruthy then SemanticMemory.removeFromIndex st.conceptIndex memory
      else st.conceptIndex
    let updated : MemoryItem :=
      { memory with
        content := content?.getD memory.content
        importance := importance?.getD memory.importance
        metadata := omerge memory.metadata (metadata?.getD []) }
    let idx2 := if contentTruthy then SemanticMemory.indexConcepts idx1 updated else idx1
    let vec2 := if contentTruthy then
        oset st.vector memoryId ⟨embed updated.content, semanticPayload updated⟩
      else st.vector
    ({ st with
        memories := oset st.memories memoryId updated
        conceptIndex := idx2
        vector := vec2 },
      true)

/-! ## Helper lemmas -/

theorem oget_oset_self {α : Type} (l : List (String × α)) (k : String) (v : α) :
    oget (oset l k v) k = some v := by
  induction l with
  | nil => simp [oset, oget]
  | cons p rest ih =>
    obtain ⟨k', v'⟩ := p
    by_cases hp : k' = k
    · simp [oset, oget, hp]
    · simp [oset, oget, hp, ih]

theorem oget_oset_ne {α : Type} (l : List (String × α)) (k k' : String) (v : α)
    (h : k' ≠ k) : oget (oset l k v) k' = oget l k' := by
  induction l with
  | nil => simp [oset, oget, Ne.symm h]
  | cons p rest ih =>
    obtain ⟨k₀, v₀⟩ := p
    by_cases hp : k₀ = k
    · subst hp
      simp [oset, oget, Ne.symm h]
    · by_cases hq : k₀ = k'
      · simp [oset, oget, hp, hq, h]
      · simp [oset, oget, hp, hq, ih]

/-- Writing a fresh key appends the binding. -/
theorem oset_fresh {α : Type} (l : List (String × α)) (k : String) (v : α)
    (h : k ∉ l.map Prod.fst) : oset l k v = l ++ [(k, v)] := by
  induction l with
  | nil => simp [oset]
  | cons p rest ih =>
    simp only [List.map_cons, List.mem_cons] at h
    push_neg at h
    simp [oset, Ne.symm h.1, ih h.2]

/-- Merging bindings whose keys are all fresh and mutually distinct appends
them. -/
theorem omerge_append {α : Type} (l m : List (String × α))
    (h : (l.map Prod.fst ++ m.map Prod.fst).Nodup) : omerge l m = l ++ m := by
  induction m generalizing l with
  | nil => simp [omerge]
  | cons p rest ih =>
    simp only [omerge, List.foldl_cons]
    have hfresh : p.1 ∉ l.map Prod.fst := by
      intro hc
      have hd := List.disjoint_of_nodup_append h
      exact hd hc (by simp)
    rw [oset_fresh l p.1 p.2 hfresh]
    have h' : ((l ++ [p]).map Prod.fst ++ rest.map Prod.fst).Nodup := by
      simp only [List.map_append, List.map_cons, List.map_nil] at h ⊢
      simpa [List.append_assoc] using h
    have := ih (l ++ [p]) h'
    simp only [omerge] at this
    rw [this]
    simp


/-! ## Tool-calling loop invariants (claim C1) -/

theorem executeAll_ids (reg : ToolRegistry) (calls : List ToolCallRequest) :
    (ToolExecutor.executeAll reg calls).map (fun r => r.id) = calls.map (fun c => c.id) := by
  simp [ToolExecutor.executeAll, ToolExecutor.execute]

theorem loopGo_invariants (o : LLMOracle) (reg : ToolRegistry) (native : Bool) (now : Nat) :
    ∀ (fuel counter k : Nat) (msgs : List ChatMsg),
      (loopGo o reg native now fuel counter msgs k).stepsUsed
          = k + (loopGo o reg native now fuel counter msgs k).trace.length
      ∧ (∀ st ∈ (loopGo o reg native now fuel counter msgs k).trace,
          st.results.map (fun r => r.id) = st.toolCalls.map (fun c => c.id))
      ∧ ((loopGo o reg native now fuel counter msgs k).reachedMaxSteps = false →
          ∃ last, (loopGo o reg native now fuel counter msgs k).trace.getLast? = some last
            ∧ last.toolCalls = [] ∧ last.results = []
            ∧ (loopGo o reg native now fuel counter msgs k).finalText = last.llmContent) := by
  intro fuel
  induction fuel with
  | zero =>
    intro counter k msgs
    refine ⟨by simp [loopGo], by simp [loopGo], ?_⟩
    intro h
    simp [loopGo] at h
  | succ fuel ih =>
    intro counter k msgs
    by_cases hn : native
    · by_cases he : (o.chatWithTools msgs).2.isEmpty
      · have hres : loopGo o reg native now (fuel + 1) counter msgs k =
            { finalText := (o.chatWithTools msgs).1.getD ""
              trace := [⟨k + 1, [], [], (o.chatWithTools msgs).1.getD ""⟩]
              stepsUsed := k + 1
              reachedMaxSteps := false } := by
          simp [loopGo, hn, he]
        rw [hres]
        exact ⟨by simp, by simp, fun _ => ⟨_, rfl, rfl, rfl, rfl⟩⟩
      · have hres : loopGo o reg native now (fuel + 1) counter msgs k =
            { finalText := (loopGo o reg native now fuel counter
                (nativeNextMsgs reg msgs ((o.chatWithTools msgs).1.getD "")
                  (o.chatWithTools msgs).2) (k + 1)).finalText
              trace := ⟨k + 1, ToolExecutor.parseFromOpenAIResponse (o.chatWithTools msgs).2,
                ToolExecutor.executeAll reg
                  (ToolExecutor.parseFromOpenAIResponse (o.chatWithTools msgs).2),
                (o.chatWithTools msgs).1.getD ""⟩ ::
                  (loopGo o reg native now fuel counter
                    (nativeNextMsgs reg msgs ((o.chatWithTools msgs).1.getD "")
                      (o.chatWithTools msgs).2) (k + 1)).trace
              stepsUsed := (loopGo o reg native now fuel counter
                (nativeNextMsgs reg msgs ((o.chatWithTools msgs).1.getD "")
                  (o.chatWithTools msgs).2) (k + 1)).stepsUsed
              reachedMaxSteps := (loopGo o reg native now fuel counter
                (nativeNextMsgs reg msgs ((o.chatWithTools msgs).1.getD "")
                  (o.chatWithTools msgs).2) (k + 1)).reachedMaxSteps } := by
          simp [loopGo, hn, he]
        rw [hres]
        obtain ⟨ih1, ih2, ih3⟩ := ih counter (k + 1)
          (nativeNextMsgs reg msgs ((o.chatWithTools msgs).1.getD "") (o.chatWithTools msgs).2)
        refine ⟨by simp only [List.length_cons]; omega, ?_, ?_⟩
        · intro st hst
          rcases List.mem_cons.mp hst with h | h
          · subst h
            exact executeAll_ids reg _
          · exact ih2 st h
        · intro hr
          obtain ⟨last, hlast, h1, h2, h3⟩ := ih3 hr
          refine ⟨last, ?_, h1, h2, h3⟩
          cases hltrace : (loopGo o reg native now fuel counter
              (nativeNextMsgs reg msgs ((o.chatWithTools msgs).1.getD "")
                (o.chatWithTools msgs).2) (k + 1)).trace with
          | nil =>
            rw [hltrace] at hlast
            simp at hlast
          | cons x xs =>
            rw [hltrace] at hlast
            simpa [List.getLast?_cons_cons] using hlast
    · by_cases he : (ToolExecutor.parseFromTextC now counter (o.invoke msgs)).1.isEmpty
      · have hres : loopGo o reg native now (fuel + 1) counter msgs k =
            { finalText := o.invoke msgs
              trace := [⟨k + 1, [], [], o.invoke msgs⟩]
              stepsUsed := k + 1
              reachedMaxSteps := false } := by
          simp [loopGo, hn, he]
        rw [hres]
        exact ⟨by simp, by simp, fun _ => ⟨_, rfl, rfl, rfl, rfl⟩⟩
      · have hres : loopGo o reg native now (fuel + 1) counter msgs k =
            { finalText := (loopGo o reg native now fuel
                (ToolExecutor.parseFromTextC now counter (o.invoke msgs)).2
                (textNextMsgs reg msgs (o.invoke msgs)
                  (ToolExecutor.parseFromTextC now counter (o.invoke msgs)).1)
                (k + 1)).finalText
              trace := ⟨k + 1, (ToolExecutor.parseFromTextC now counter (o.invoke msgs)).1,
                ToolExecutor.executeAll reg
                  (ToolExecutor.parseFromTextC now counter (o.invoke msgs)).1,
                o.invoke msgs⟩ ::
                  (loopGo o reg native now fuel
                    (ToolExecutor.parseFromTextC now counter (o.invoke msgs)).2
                    (textNextMsgs reg msgs (o.invoke msgs)
                      (ToolExecutor.parseFromTextC now counter (o.invoke msgs)).1)
                    (k + 1)).trace
              stepsUsed := (loopGo o reg native now fuel
                (ToolExecutor.parseFromTextC now counter (o.invoke msgs)).2
                (textNextMsgs reg msgs (o.invoke msgs)
                  (ToolExecutor.parseFromTextC now counter (o.invoke msgs)).1)
                (k + 1)).stepsUsed
              reachedMaxSteps := (loopGo o reg native now fuel
                (ToolExecutor.parseFromTextC now counter (o.invoke msgs)).2
                (textNextMsgs reg msgs (o.invoke msgs)
                  (ToolExecutor.parseFromTextC now counter (o.invoke msgs)).1)
                (k + 1)).reachedMaxSteps } := by
          simp [loopGo, hn, he]
        rw [hres]
        obtain ⟨ih1, ih2, ih3⟩ := ih (ToolExecutor.parseFromTextC now counter (o.invoke msgs)).2
          (k + 1)
          (textNextMsgs reg msgs (o.invoke msgs)
            (ToolExecutor.parseFromTextC now counter (o.invoke msgs)).1)
        refine ⟨by simp only [List.length_cons]; omega, ?_, ?_⟩
        · intro st hst
          rcases List.mem_cons.mp hst with h | h
          · subst h
            exact executeAll_ids reg _
          · exact ih2 st h
        · intro hr
          obtain ⟨last, hlast, h1, h2, h3⟩ := ih3 hr
          refine ⟨last, ?_, h1, h2, h3⟩
          cases hltrace : (loopGo o reg native now fuel
              (ToolExecutor.parseFromTextC now counter (o.invoke msgs)).2
              (textNextMsgs reg msgs (o.invoke msgs)
                (ToolExecutor.parseFromTextC now counter (o.invoke msgs)).1)
              (k + 1)).trace with
          | nil =>
            rw [hltrace] at hlast
            simp at hlast
          | cons x xs =>
            rw [hltrace] at hlast
            simpa [List.getLast?_cons_cons] using hlast

/-- C1: every completed run of `runToolCallingLoop` has exactly `stepsUsed`
entries in its trace; every trace step has exactly one result per tool call,
with `results[i].id = toolCalls[i].id` in the same order (stated as equality
of the id lists); and whenever the loop returns with
`reachedMaxSteps = false`, the final trace step has empty `toolCalls` and
`results` and `finalText` equals that step's `llmContent`. -/
theorem claim_C1 (o : LLMOracle) (reg : ToolRegistry) (useNative : Bool)
    (schemas : List FunctionSchema) (maxSteps now : Nat) (messages : List ChatMsg) :
    (runToolCallingLoop o reg useNative schemas maxSteps now messages).trace.length
        = (runToolCallingLoop o reg useNative schemas maxSteps now messages).stepsUsed
    ∧ (∀ st ∈ (runToolCallingLoop o reg useNative schemas maxSteps now messages).trace,
        st.results.map (fun r => r.id) = st.toolCalls.map (fun c => c.id))
    ∧ ((runToolCallingLoop o reg useNative schemas maxSteps now messages).reachedMaxSteps
          = false →
        ∃ last, (runToolCallingLoop o reg useNative schemas maxSteps now
            messages).trace.getLast? = some last
          ∧ last.toolCalls = [] ∧ last.results = []
          ∧ (runToolCallingLoop o reg useNative schemas maxSteps now messages).finalText
              = last.llmContent) := by
  obtain ⟨h1, h2, h3⟩ := loopGo_invariants o reg (useNative && !schemas.isEmpty) now maxSteps 0 0
    (messages.map (fun m => { role := m.role, content := m.content }))
  exact ⟨by simpa [runToolCallingLoop] using h1.symm,
    by simpa [runToolCallingLoop] using h2,
    by simpa [runToolCallingLoop] using h3⟩

def c1Oracle : LLMOracle :=
  { chatWithTools := fun _ => (some "done", [])
    chatForced := fun _ => some "forced"
    invoke := fun _ => "done" }

def c1Registry : ToolRegistry := ⟨[], []⟩

theorem claim_C1_witness :
    ∃ last, (runToolCallingLoop c1Oracle c1Registry true [⟨"t", "d"⟩] 3 0
        []).trace.getLast? = some last
      ∧ last.toolCalls = [] ∧ last.results = []
      ∧ (runToolCallingLoop c1Oracle c1Registry true [⟨"t", "d"⟩] 3 0 []).finalText
          = last.llmContent :=
  (claim_C1 c1Oracle c1Registry true [⟨"t", "d"⟩] 3 0 []).2.2 (by decide)

def c2Registry : ToolRegistry := ⟨[("f", fun _ => Except.error "boom")], []⟩

/-- C2 counterexample: with a registered tool whose body throws, `execute`
returns `success = true` with no `error` field — the exception text comes
back inside `output`, because `ToolRegistry.executeTool` already converted
the exception into an ordinary result string — refuting the claimed
`ToolCallResult{success:false}` with the message in `error`. -/
theorem claim_C2_counterexample :
    (ToolExecutor.execute c2Registry ⟨"id1", "f", Json.obj []⟩).success = true
    ∧ (ToolExecutor.execute c2Registry ⟨"id1", "f", Json.obj []⟩).error = none
    ∧ (ToolExecutor.execute c2Registry ⟨"id1", "f", Json.obj []⟩).output
        = toolErrorText "f" "boom" :=
  ⟨rfl, rfl, rfl⟩

/-- C2 (amended): no exception crosses the executor boundary, but not in the
claimed shape, because `ToolRegistry.executeTool` never throws at all: it
catches the tool body's exception and returns the error text
(`错误：执行工具 ... 时发生异常: ...`) as an ordinary result string, and an
unknown tool name likewise returns `错误：未找到名为 ... 的工具。` as an
ordinary result string — so `ToolExecutor.execute` reports `success = true`
with `error` unset in both cases, with the error text embedded in `output`,
and its `success = false` catch branch is unreachable through `executeTool`;
`executeAll` never throws and returns exactly one result per call, with
matching ids in order. -/
theorem claim_C2 (reg : ToolRegistry) (call : ToolCallRequest)
    (run : Json → Except String String) (msg : String)
    (hlook : reg.tools.lookup call.name = some run)
    (hthrow : ∀ p, run p = Except.error msg) :
    ToolExecutor.execute reg call =
      ⟨call.id, call.name, toolErrorText call.name msg, none, true⟩
    ∧ (∀ (rid name2 : String) (input2 : Json),
        reg.tools.lookup name2 = none → reg.functions.lookup name2 = none →
        ToolExecutor.execute reg ⟨rid, name2, input2⟩ =
          ⟨rid, name2, "错误：未找到名为 \x27" ++ name2 ++ "\x27 的工具。", none, true⟩)
    ∧ ∀ calls : List ToolCallRequest,
        (ToolExecutor.executeAll reg calls).map (fun r => r.id)
          = calls.map (fun c => c.id) := by
  refine ⟨?_, ?_, ?_⟩
  · unfold ToolExecutor.execute ToolRegistry.executeTool
    rw [hlook]
    simp [hthrow]
  · intro rid name2 input2 h1 h2
    unfold ToolExecutor.execute ToolRegistry.executeTool
    rw [h1, h2]
  · intro calls
    exact executeAll_ids reg calls

theorem claim_C2_witness :
    ToolExecutor.execute c2Registry ⟨"id1", "f", Json.obj []⟩ =
      ⟨"id1", "f", toolErrorText "f" "boom", none, true⟩
    ∧ ToolExecutor.execute c2Registry ⟨"id2", "nope", Json.obj []⟩ =
      ⟨"id2", "nope", "错误：未找到名为 \x27nope\x27 的工具。", none, true⟩
    ∧ (ToolExecutor.executeAll c2Registry [⟨"id1", "f", Json.obj []⟩]).map (fun r => r.id)
        = ["id1"] := by
  have h := claim_C2 c2Registry ⟨"id1", "f", Json.obj []⟩
    (fun _ => Except.error "boom") "boom" rfl (fun _ => rfl)
  refine ⟨h.1, ?_, h.2.2 [⟨"id1", "f", Json.obj []⟩]⟩
  have h2 := h.2.1 "id2" "nope" (Json.obj []) rfl rfl
  simpa using h2

def c3Registry : ToolRegistry := ⟨[("calc", fun _ => Except.ok "2")], []⟩

def c3Llm : Nat → List ChatMsg → String := fun _ _ => "计算 [TOOL_CALL:calc:1+1] 完成"

/-- C3 counterexample: with tool calling enabled and a tool-call intent in
the model's response, `MemoryAgent.runWithTools` makes exactly one model
invocation — it never runs the tool-calling loop and never re-invokes the
model on an augmented message list — and the returned answer is the first
response with the call marker textually replaced by the tool result, which
differs from every model output. -/
theorem claim_C3_counterexample :
    (MemoryAgent.runWithTools c3Registry c3Llm 0 []).2 = 1
    ∧ (MemoryAgent.runWithTools c3Registry c3Llm 0 []).1
        = "计算 \n工具 calc 返回: 2\n 完成"
    ∧ (MemoryAgent.runWithTools c3Registry c3Llm 0 []).1 ≠ c3Llm 0 []
    ∧ MemoryAgent.parseToolCalls (c3Llm 0 []) ≠ [] := by decide

/-- C3 (amended): on the invocation step of `MemoryAgent.run`, the model is
called exactly once whether tools are enabled or not; tool-call intents are
parsed from that single response with the legacy `[TOOL_CALL:...]` protocol
only (the `[[TOOL_CALL]]` JSON-block protocol is not recognized by the
agent's private parser); when no intent parses the response is returned
verbatim, and when intents parse each call's result is spliced into the
response text in place of its marker — no subsequent model invocation
produces the answer. -/
theorem claim_C3 (reg : ToolRegistry) (llm : Nat → List ChatMsg → String)
    (msgs : List ChatMsg) (enabled : Bool) :
    (MemoryAgent.runInvoke enabled (some reg) llm msgs).2 = 1
    ∧ (MemoryAgent.runInvoke enabled none llm msgs).2 = 1
    ∧ (MemoryAgent.parseToolCalls (llm 0 msgs) = [] →
        (MemoryAgent.runInvoke enabled (some reg) llm msgs).1 = llm 0 msgs)
    ∧ MemoryAgent.parseToolCalls
        "[[TOOL_CALL]]\x7b\"name\":\"calc\",\"arguments\":\x7b\x7d\x7d[[/TOOL_CALL]]" = [] := by
  refine ⟨?_, rfl, ?_, by decide⟩
  · cases enabled with
    | false => rfl
    | true =>
      unfold MemoryAgent.runInvoke MemoryAgent.runWithTools
      by_cases h : (MemoryAgent.parseToolCalls (llm 0 msgs)).isEmpty
      · simp [h]
      · simp [h]
  · intro hp
    cases enabled with
    | false => rfl
    | true =>
      unfold MemoryAgent.runInvoke MemoryAgent.runWithTools
      simp [hp]

def c3PlainLlm : Nat → List ChatMsg → String := fun _ _ => "plain answer"

theorem claim_C3_witness :
    (MemoryAgent.runInvoke true (some c3Registry) c3PlainLlm []).1 = "plain answer"
    ∧ (MemoryAgent.runInvoke true (some c3Registry) c3PlainLlm []).2 = 1 := by
  have h := claim_C3 c3Registry c3PlainLlm [] true
  exact ⟨h.2.2.1 (by decide), h.1⟩

/-- C4: `parseFromText` is total by construction (a Lean function into a
list); a `[[TOOL_CALL]]` block whose body fails to parse (or lacks a truthy
name) contributes nothing and does not disturb the calls extracted from any
other block — stated as: dropping such a block from the block list leaves
the extracted calls, ids included, unchanged; and whenever the JSON-block
protocol produces at least one call, `parseFromText` returns exactly those
calls, so the legacy protocol is not consulted.  The closing concrete case
shows a malformed block followed by a well-formed one and a legacy marker:
only the JSON call (with the first fresh id) is returned. -/
theorem claim_C4 :
    (∀ (bs1 : List String) (b : String) (bs2 : List String),
        ToolExecutor.parseBlockNameArgs b = none →
          (bs1 ++ b :: bs2).filterMap ToolExecutor.parseBlockNameArgs
            = (bs1 ++ bs2).filterMap ToolExecutor.parseBlockNameArgs)
    ∧ (∀ now c text,
        (extractJsonBlocks text).filterMap ToolExecutor.parseBlockNameArgs ≠ [] →
          ToolExecutor.parseFromText now c text
            = (ToolExecutor.assignIds now c
                ((extractJsonBlocks text).filterMap ToolExecutor.parseBlockNameArgs)).1)
    ∧ ToolExecutor.parseBlockNameArgs "not json" = none
    ∧ ToolExecutor.parseFromText 0 0
        "[[TOOL_CALL]]not json[[/TOOL_CALL]][[TOOL_CALL]]\x7b\"name\":\"search\",\"arguments\":\x7b\"query\":\"ts\"\x7d\x7d[[/TOOL_CALL]][TOOL_CALL:x:y]"
        = [⟨ToolExecutor.generateCallId 0 1, "search",
            Json.obj [("query", Json.str "ts")]⟩] := by
  refine ⟨?_, ?_, by decide, by decide⟩
  · intro bs1 b bs2 hb
    simp [List.filterMap_append, hb]
  · intro now c text hne
    unfold ToolExecutor.parseFromText ToolExecutor.parseFromTextC
    simp only [List.isEmpty_iff, hne, if_neg, if_false]

theorem claim_C4_witness :
    (["ok"] ++ "bad" :: ["rest"]).filterMap ToolExecutor.parseBlockNameArgs
        = (["ok"] ++ ["rest"]).filterMap ToolExecutor.parseBlockNameArgs
    ∧ ToolExecutor.parseFromText 3 4
        "[[TOOL_CALL]]\x7b\"name\":\"a\"\x7d[[/TOOL_CALL]]"
        = (ToolExecutor.assignIds 3 4
            ((extractJsonBlocks
              "[[TOOL_CALL]]\x7b\"name\":\"a\"\x7d[[/TOOL_CALL]]").filterMap
              ToolExecutor.parseBlockNameArgs)).1 := by
  have h := claim_C4
  exact ⟨h.1 ["ok"] "bad" ["rest"] (by decide), h.2.1 3 4 _ (by decide)⟩

/-- C5: the legacy text protocol maps `[TOOL_CALL:t:a=1,b=true,c=hi]` to one
call on tool `t` with arguments `{a: 1 (number), b: true (boolean),
c: "hi" (string)}`, and `[TOOL_CALL:t:hello]` to one call with the free-form
string bound to all of `input`, `query` and `expression`. -/
theorem claim_C5 :
    ToolExecutor.parseFromText 0 0 "[TOOL_CALL:t:a=1,b=true,c=hi]" =
      [⟨ToolExecutor.generateCallId 0 1, "t",
        Json.obj [("a", Json.num 1), ("b", Json.bool true), ("c", Json.str "hi")]⟩]
    ∧ ToolExecutor.parseFromText 0 0 "[TOOL_CALL:t:hello]" =
      [⟨ToolExecutor.generateCallId 0 1, "t",
        Json.obj [("input", Json.str "hello"), ("query", Json.str "hello"),
          ("expression", Json.str "hello")]⟩] := by
  constructor
  · decide
  · decide

/-! ## Cross-tier retrieval (claim C6) -/

/-- Importance-descending order between adjacent results. -/
def impGE (a b : MemoryItem) : Prop := b.importance ≤ a.importance

theorem insertDesc_chain' (x : MemoryItem) :
    ∀ l, List.Chain' impGE l → List.Chain' impGE (insertDesc x l)
  | [], _ => by simp [insertDesc]
  | [y], _ => by
    by_cases hxy : x.importance < y.importance
    · simp only [insertDesc, if_pos hxy]
      exact List.chain'_cons.mpr ⟨le_of_lt hxy, List.chain'_singleton x⟩
    · simp only [insertDesc, if_neg hxy]
      exact List.chain'_cons.mpr ⟨not_lt.mp hxy, List.chain'_singleton y⟩
  | y :: z :: zs, h => by
    obtain ⟨hyz, htail⟩ := List.chain'_cons.mp h
    by_cases hxy : x.importance < y.importance
    · have hrec := insertDesc_chain' x (z :: zs) htail
      rw [insertDesc, if_pos hxy]
      rw [insertDesc] at hrec ⊢
      by_cases hxz : x.importance < z.importance
      · rw [if_pos hxz] at hrec ⊢
        exact List.chain'_cons.mpr ⟨hyz, hrec⟩
      · rw [if_neg hxz] at hrec ⊢
        exact List.chain'_cons.mpr ⟨le_of_lt hxy, hrec⟩
    · rw [insertDesc, if_neg hxy]
      exact List.chain'_cons.mpr ⟨not_lt.mp hxy, h⟩

theorem sortByImportanceDesc_chain' (l : List MemoryItem) :
    List.Chain' impGE (sortByImportanceDesc l) := by
  induction l with
  | nil => simp [sortByImportanceDesc]
  | cons x xs ih => exact insertDesc_chain' x _ ih

def failTier (e : String) : Tier := fun _ _ => Except.error e

def emptyTier : Tier := fun _ _ => Except.ok []

def echoTier : Tier := fun _ k =>
  Except.ok ((List.range k).map
    (fun i => ⟨"e" ++ toString i, "c", "working", "u", 0, 0, []⟩))

/-- C6 counterexample: with three enabled tiers each returning exactly as
many items as it is asked for and `limit = 10`, the code collects
`3 × max(1, ⌊10/3⌋) = 9` items, while the claimed per-type limit
`⌈10/3⌉ = 4` would collect 12 and truncate to 10 — so the claim's ceiling
fan-out (`retrieveMemoriesSpec`, worded from the spec) disagrees with the
code on an observable output. -/
theorem claim_C6_counterexample :
    (MemoryManager.retrieveMemories [echoTier, echoTier, echoTier] "q" 10).length = 9
    ∧ (MemoryManager.retrieveMemoriesSpec [echoTier, echoTier, echoTier] "q" 10).length = 10
    ∧ MemoryManager.retrieveMemories [echoTier, echoTier, echoTier] "q" 10
      ≠ MemoryManager.retrieveMemoriesSpec [echoTier, echoTier, echoTier] "q" 10 := by
  refine ⟨by decide, by decide, ?_⟩
  intro h
  have := congrArg List.length h
  simp only at this
  exact absurd this (by decide)

/-- C6 (amended): `retrieveMemories` fans out over the enabled tiers with
per-type limit `max(1, ⌊limit / n⌋)` (not `⌈limit / n⌉`), unions the
per-tier results, sorts them by importance descending (adjacent results are
ordered) and truncates to at most `limit` items; a tier that throws is
skipped — replacing it by a tier returning no results leaves the output
unchanged — and does not abort retrieval from the remaining tiers. -/
theorem claim_C6 :
    (∀ (tiers : List Tier) (q : String) (limit : Nat),
        (MemoryManager.retrieveMemories tiers q limit).length ≤ limit)
    ∧ (∀ (tiers : List Tier) (q : String) (limit : Nat),
        List.Chain' impGE (MemoryManager.retrieveMemories tiers q limit))
    ∧ (∀ (pre post : List Tier) (e q : String) (limit : Nat),
        MemoryManager.retrieveMemories (pre ++ failTier e :: post) q limit
          = MemoryManager.retrieveMemories (pre ++ emptyTier :: post) q limit) := by
  refine ⟨?_, ?_, ?_⟩
  · intro tiers q limit
    simp [MemoryManager.retrieveMemories]
  · intro tiers q limit
    exact List.Chain'.take (sortByImportanceDesc_chain' _) _
  · intro pre post e q limit
    unfold MemoryManager.retrieveMemories
    simp [List.foldl_append, failTier, emptyTier, List.length_append]

/-! ## Forgetting policy (claim C9) -/

theorem forget_fold_memories (victims : List (String × MemoryItem)) :
    ∀ st : EpState,
      (victims.foldl (fun s p => (EpisodicMemory.remove s p.1).1) st).memories
        = victims.foldl (fun m p => eraseKey m p.1) st.memories := by
  induction victims with
  | nil => intro st; rfl
  | cons v vs ih => intro st; exact ih _

theorem eraseKey_cons_ne {α : Type} (p : String × α) (l : List (String × α)) (k : String)
    (h : p.1 ≠ k) : eraseKey (p :: l) k = p :: eraseKey l k := by
  obtain ⟨k', v⟩ := p
  simp only at h
  simp [eraseKey, h]

theorem fold_erase_comm {α : Type} (x : String × α) :
    ∀ (vs : List (String × α)) (l0 : List (String × α)),
      (∀ v ∈ vs, v.1 ≠ x.1) →
      vs.foldl (fun m v => eraseKey m v.1) (x :: l0)
        = x :: vs.foldl (fun m v => eraseKey m v.1) l0
  | [], _, _ => rfl
  | v :: vs, l0, h => by
    simp only [List.foldl_cons]
    rw [eraseKey_cons_ne x l0 v.1 (fun he => h v (by simp) he.symm)]
    exact fold_erase_comm x vs (eraseKey l0 v.1) (fun w hw => h w (by simp [hw]))

theorem fold_erase_filter (p : String × MemoryItem → Bool) :
    ∀ l : List (String × MemoryItem), (l.map Prod.fst).Nodup →
      (l.filter p).foldl (fun m v => eraseKey m v.1) l
        = l.filter (fun x => !(p x)) := by
  intro l
  induction l with
  | nil => intro _; rfl
  | cons x xs ih =>
    intro hnd
    rw [List.map_cons] at hnd
    have hx : x.1 ∉ xs.map Prod.fst := (List.nodup_cons.mp hnd).1
    have hxs : (xs.map Prod.fst).Nodup := (List.nodup_cons.mp hnd).2
    by_cases hpx : p x
    · rw [List.filter_cons_of_pos hpx, List.foldl_cons]
      have h1 : eraseKey (x :: xs) x.1 = xs := by
        obtain ⟨k, v⟩ := x
        simp [eraseKey]
      rw [h1, ih hxs, List.filter_cons_of_neg (by simp [hpx])]
    · have hpx' : p x = false := by simpa using hpx
      rw [List.filter_cons_of_neg (by simp [hpx']), fold_erase_comm x (xs.filter p) xs
        (fun v hv he => hx (he ▸ List.mem_map_of_mem Prod.fst (List.mem_of_mem_filter hv))),
        ih hxs, List.filter_cons_of_pos (by simp [hpx'])]

def c9Item (i : Nat) (imp : Rat) (ts : Rat) : MemoryItem :=
  ⟨"m" ++ toString i, "c", "episodic", "u", ts, imp, []⟩

def c9State : EpState := ⟨[("m1", c9Item 1 1 0)], [], []⟩

def c9State3 : EpState :=
  ⟨[("a", c9Item 1 1 0), ("b", c9Item 2 0 0), ("c", c9Item 3 1 0)], [], []⟩

section

attribute [local semireducible] Rat.add Rat.mul Rat.sub Rat.inv

/-- C9 counterexample: on a state holding one item 100 days old,
`forget(time_based, maxAgeDays = 30)` removes nothing and returns 0, while
the claimed semantics (`forgetTimeBasedSpec`, worded from the spec) removes
the item and returns 1; on a three-item state,
`forget(capacity_based)` removes nothing, while the claimed semantics
(`forgetCapacityBasedSpec` with target 1) evicts down to one item. -/
theorem claim_C9_counterexample :
    EpisodicMemory.forget c9State ForgetStrategy.time_based (mkRat 1 10) 30 = (c9State, 0)
    ∧ EpisodicMemory.forgetTimeBasedSpec c9State 8640000000 30 = (⟨[], [], []⟩, 1)
    ∧ EpisodicMemory.forget c9State3 ForgetStrategy.capacity_based (mkRat 1 10) 30
        = (c9State3, 0)
    ∧ (EpisodicMemory.forgetCapacityBasedSpec c9State3 1).1.memories.length = 1 := by
  refine ⟨rfl, by decide, rfl, by decide⟩

end

/-- C9 (amended): `EpisodicMemory.forget` implements only the
`importance_based` strategy — it removes exactly the items whose importance
is strictly below the threshold and returns their count; the `time_based`
and `capacity_based` strategies are accepted but perform no removals and
return 0 (their parameters, including `maxAgeDays`, are ignored). -/
theorem claim_C9 (st : EpState) (threshold : Rat) (maxAgeDays : Nat) :
    EpisodicMemory.forget st ForgetStrategy.time_based threshold maxAgeDays = (st, 0)
    ∧ EpisodicMemory.forget st ForgetStrategy.capacity_based threshold maxAgeDays = (st, 0)
    ∧ ((st.memories.map Prod.fst).Nodup →
        (EpisodicMemory.forget st ForgetStrategy.importance_based threshold
            maxAgeDays).1.memories
          = st.memories.filter (fun x => !(decide (x.2.importance < threshold)))
        ∧ (EpisodicMemory.forget st ForgetStrategy.importance_based threshold maxAgeDays).2
          = (st.memories.filter (fun x => decide (x.2.importance < threshold))).length) := by
  refine ⟨rfl, rfl, ?_⟩
  intro hnd
  constructor
  · show (((st.memories.filter (fun x => decide (x.2.importance < threshold))).foldl
        (fun s p => (EpisodicMemory.remove s p.1).1) st)).memories = _
    rw [forget_fold_memories]
    exact fold_erase_filter (fun x => decide (x.2.importance < threshold)) st.memories hnd
  · rfl

theorem claim_C9_witness :
    (EpisodicMemory.forget c9State3 ForgetStrategy.importance_based (mkRat 1 2) 30).1.memories
        = [("a", c9Item 1 1 0), ("c", c9Item 3 1 0)]
    ∧ (EpisodicMemory.forget c9State3 ForgetStrategy.importance_based (mkRat 1 2) 30).2 = 1 := by
  have h := (claim_C9 c9State3 (mkRat 1 2) 30).2.2 (by decide)
  exact ⟨h.1.trans (by decide), h.2.trans (by decide)⟩

/-! ## Concept-index lemmas (claim C8) -/

/-- The id set stored under a word (empty when the word is unindexed). -/
def idsOf (idx : List (String × List String)) (w : String) : List String :=
  (oget idx w).getD []

/-- Well-formedness the source's `Map<string, Set<string>>` guarantees:
unique word keys and duplicate-free id sets. -/
def IndexWF (idx : List (String × List String)) : Prop :=
  (idx.map Prod.fst).Nodup ∧ ∀ p ∈ idx, p.2.Nodup

theorem mem_addToIndex_self (idx : List (String × List String)) (w id : String) :
    id ∈ idsOf (addToIndex idx w id) w := by
  induction idx with
  | nil => simp [addToIndex, idsOf, oget]
  | cons p rest ih =>
    obtain ⟨u, ids⟩ := p
    by_cases hu : u = w
    · subst hu
      simp only [addToIndex, if_pos rfl, idsOf, oget, Option.getD_some]
      by_cases hm : id ∈ ids
      · rw [if_pos hm]
        exact hm
      · rw [if_neg hm]
        simp
    · simp only [addToIndex, if_neg hu, idsOf, oget, hu, if_false]
      exact ih

theorem oget_addToIndex_ne (idx : List (String × List String)) (w w' id : String)
    (h : w' ≠ w) : oget (addToIndex idx w id) w' = oget idx w' := by
  induction idx with
  | nil => simp [addToIndex, oget, Ne.symm h]
  | cons p rest ih =>
    obtain ⟨u, ids⟩ := p
    by_cases hu : u = w
    · subst hu
      simp [addToIndex, oget, Ne.symm h]
    · by_cases hw' : u = w'
      · subst hw'
        simp [addToIndex, oget, hu]
      · simp [addToIndex, oget, hu, hw', ih]

theorem mem_addFold_preserved (id w : String) :
    ∀ (ws : List String) (idx : List (String × List String)),
      id ∈ idsOf idx w →
      id ∈ idsOf (ws.foldl (fun i u => if 2 < u.length then addToIndex i u id else i) idx) w
  | [], _, h => h
  | u :: us, idx, h => by
    simp only [List.foldl_cons]
    refine mem_addFold_preserved id w us _ ?_
    by_cases hl : 2 < u.length
    · simp only [hl, if_pos]
      by_cases hu : u = w
      · subst hu
        exact mem_addToIndex_self idx u id
      · simpa [idsOf, oget_addToIndex_ne idx u w id (Ne.symm hu)] using h
    · simpa [hl] using h

theorem mem_addFold_of_mem (id w : String) :
    ∀ (ws : List String) (idx : List (String × List String)),
      w ∈ ws → 2 < w.length →
      id ∈ idsOf (ws.foldl (fun i u => if 2 < u.length then addToIndex i u id else i) idx) w
  | [], _, h, _ => absurd h (List.not_mem_nil w)
  | u :: us, idx, h, hlen => by
    simp only [List.foldl_cons]
    rcases List.mem_cons.mp h with he | hm
    · subst he
      exact mem_addFold_preserved id w us _
        (by simpa [hlen] using mem_addToIndex_self idx w id)
    · exact mem_addFold_of_mem id w us _ hm hlen

theorem oget_addFold_ne (id w : String) :
    ∀ (ws : List String) (idx : List (String × List String)),
      w ∉ ws →
      oget (ws.foldl (fun i u => if 2 < u.length then addToIndex i u id else i) idx) w
        = oget idx w
  | [], _, _ => rfl
  | u :: us, idx, h => by
    simp only [List.foldl_cons]
    have hne : w ≠ u := fun he => h (he ▸ List.mem_cons_self u us)
    rw [oget_addFold_ne id w us _ (fun hm => h (List.mem_cons_of_mem u hm))]
    by_cases hl : 2 < u.length
    · simp only [hl, if_pos]
      exact oget_addToIndex_ne idx u w id hne
    · simp [hl]

theorem oget_none_of_not_key (idx : List (String × List String)) (w : String)
    (h : w ∉ idx.map Prod.fst) : oget idx w = none := by
  induction idx with
  | nil => rfl
  | cons p rest ih =>
    simp only [List.map_cons, List.mem_cons] at h
    push_neg at h
    obtain ⟨u, ids⟩ := p
    simp only at h
    simp [oget, Ne.symm h.1, ih h.2]

theorem keys_removeIdFromIndex_sublist (idx : List (String × List String)) (w id : String) :
    ((removeIdFromIndex idx w id).map Prod.fst).Sublist (idx.map Prod.fst) := by
  induction idx with
  | nil => simp [removeIdFromIndex]
  | cons p rest ih =>
    obtain ⟨u, ids⟩ := p
    by_cases hu : u = w
    · subst hu
      by_cases he : ids.erase id = []
      · simp only [removeIdFromIndex, if_pos rfl, he, if_pos, List.map_cons]
        exact List.sublist_cons_self _ _
      · simp only [removeIdFromIndex, if_pos rfl, if_neg he, List.map_cons]
        exact List.Sublist.refl _
    · simp only [removeIdFromIndex, if_neg hu, List.map_cons]
      exact List.Sublist.cons₂ _ ih

theorem removeIdFromIndex_wf (idx : List (String × List String)) (w id : String)
    (hwf : IndexWF idx) : IndexWF (removeIdFromIndex idx w id) := by
  obtain ⟨hkeys, hids⟩ := hwf
  induction idx with
  | nil => exact ⟨by simp [removeIdFromIndex], by simp [removeIdFromIndex]⟩
  | cons p rest ih =>
    obtain ⟨u, ids⟩ := p
    rw [List.map_cons, List.nodup_cons] at hkeys
    have hrest : IndexWF (removeIdFromIndex rest w id) :=
      ih hkeys.2 (fun q hq => hids q (List.mem_cons_of_mem _ hq))
    by_cases hu : u = w
    · subst hu
      by_cases he : ids.erase id = []
      · refine ⟨?_, ?_⟩
        · simpa [removeIdFromIndex, he] using hkeys.2
        · intro q hq
          simp only [removeIdFromIndex, if_pos rfl, he, if_pos] at hq
          exact hids q (List.mem_cons_of_mem _ hq)
      · refine ⟨?_, ?_⟩
        · simpa [removeIdFromIndex, he] using hkeys
        · intro q hq
          simp only [removeIdFromIndex, if_pos rfl, if_neg he] at hq
          rcases List.mem_cons.mp hq with he' | hm
          · subst he'
            exact (hids (u, ids) (List.mem_cons_self _ _)).erase id
          · exact hids q (List.mem_cons_of_mem _ hm)
    · refine ⟨?_, ?_⟩
      · simp only [removeIdFromIndex, if_neg hu, List.map_cons, List.nodup_cons]
        exact ⟨fun hm => hkeys.1 ((keys_removeIdFromIndex_sublist rest w id).mem hm), hrest.1⟩
      · intro q hq
        simp only [removeIdFromIndex, if_neg hu] at hq
        rcases List.mem_cons.mp hq with he' | hm
        · subst he'
          exact hids (u, ids) (List.mem_cons_self _ _)
        · exact hrest.2 q hm

theorem not_mem_removeIdFromIndex_self (idx : List (String × List String)) (w id : String)
    (hwf : IndexWF idx) : id ∉ idsOf (removeIdFromIndex idx w id) w := by
  obtain ⟨hkeys, hids⟩ := hwf
  induction idx with
  | nil => simp [removeIdFromIndex, idsOf, oget]
  | cons p rest ih =>
    obtain ⟨u, ids⟩ := p
    rw [List.map_cons, List.nodup_cons] at hkeys
    by_cases hu : u = w
    · subst hu
      by_cases he : ids.erase id = []
      · simp only [removeIdFromIndex, if_pos rfl, he, if_pos]
        have hnone : oget rest u = none := oget_none_of_not_key rest u hkeys.1
        simp [idsOf, hnone]
      · have hnd : ids.Nodup := hids (u, ids) (List.mem_cons_self _ _)
        simp only [removeIdFromIndex, if_pos rfl, if_neg he]
        intro hm
        have hm' : id ∈ ids.erase id := by simpa [idsOf, oget] using hm
        exact absurd ((List.Nodup.mem_erase_iff hnd).mp hm').1 (by simp)
    · simp only [removeIdFromIndex, if_neg hu]
      have := ih hkeys.2 (fun q hq => hids q (List.mem_cons_of_mem _ hq))
      intro hm
      exact this (by simpa [idsOf, oget, hu] using hm)

theorem not_mem_removeIdFromIndex (idx : List (String × List String)) (w w' id : String)
    (hkeys : (idx.map Prod.fst).Nodup)
    (h : id ∉ idsOf idx w) : id ∉ idsOf (removeIdFromIndex idx w' id) w := by
  induction idx with
  | nil => simpa [removeIdFromIndex] using h
  | cons p rest ih =>
    obtain ⟨u, ids⟩ := p
    rw [List.map_cons, List.nodup_cons] at hkeys
    by_cases hu : u = w'
    · subst hu
      by_cases he : ids.erase id = []
      · simp only [removeIdFromIndex, if_pos rfl, he, if_pos]
        by_cases huw : u = w
        · subst huw
          have hnone : oget rest u = none := oget_none_of_not_key rest u hkeys.1
          simp [idsOf, hnone]
        · simp only [idsOf, oget, huw, if_neg, if_false] at h
          simpa [idsOf] using h
      · by_cases huw : u = w
        · subst huw
          have hids' : id ∉ ids := by simpa [idsOf, oget] using h
          simp only [removeIdFromIndex, if_pos rfl, if_neg he]
          intro hm
          have hm' : id ∈ ids.erase id := by simpa [idsOf, oget] using hm
          exact hids' (List.mem_of_mem_erase hm')
        · have h' : id ∉ idsOf rest w := by simpa [idsOf, oget, huw] using h
          simp only [removeIdFromIndex, if_pos rfl, if_neg he]
          intro hm
          exact h' (by simpa [idsOf, oget, huw] using hm)
    · by_cases huw : u = w
      · subst huw
        have hids' : id ∉ ids := by simpa [idsOf, oget] using h
        simp only [removeIdFromIndex, if_neg hu]
        intro hm
        exact hids' (by simpa [idsOf, oget] using hm)
      · have h' : id ∉ idsOf rest w := by simpa [idsOf, oget, huw] using h
        simp only [removeIdFromIndex, if_neg hu]
        have := ih hkeys.2 h'
        intro hm
        exact this (by simpa [idsOf, oget, huw] using hm)

theorem not_mem_removeFold_pres (id w : String) :
    ∀ (ws : List String) (idx : List (String × List String)),
      (idx.map Prod.fst).Nodup → id ∉ idsOf idx w →
      id ∉ idsOf (ws.foldl (fun i u => removeIdFromIndex i u id) idx) w
  | [], _, _, h => h
  | u :: us, idx, hk, h => by
    simp only [List.foldl_cons]
    exact not_mem_removeFold_pres id w us _
      ((keys_removeIdFromIndex_sublist idx u id).nodup hk)
      (not_mem_removeIdFromIndex idx w u id hk h)

theorem not_mem_removeFold (id w : String) :
    ∀ (ws : List String) (idx : List (String × List String)),
      IndexWF idx → w ∈ ws →
      id ∉ idsOf (ws.foldl (fun i u => removeIdFromIndex i u id) idx) w
  | [], _, _, h => absurd h (List.not_mem_nil w)
  | u :: us, idx, hwf, h => by
    simp only [List.foldl_cons]
    rcases List.mem_cons.mp h with he | hm
    · subst he
      exact not_mem_removeFold_pres id w us _
        ((keys_removeIdFromIndex_sublist idx w id).nodup hwf.1)
        (not_mem_removeIdFromIndex_self idx w id hwf)
    · exact not_mem_removeFold id w us _ (removeIdFromIndex_wf idx u id hwf) hm

def c8Embed : String → List Rat := fun s => [(s.length : Rat)]

def c8Item : MemoryItem := ⟨"m1", "alpha beta", "semantic", "u1", 1000, 1, []⟩

def c8State : SemState :=
  ⟨[("m1", c8Item)], SemanticMemory.indexConcepts [] c8Item,
    [("m1", ⟨c8Embed "alpha beta", semanticPayload c8Item⟩)]⟩

/-- C8 counterexample: a content-changing update leaves the stored vector
collection untouched — the point still holds the embedding of the old
content — while the claimed semantics (`updateSpec`, worded from the spec)
rewrites it with the re-embedded new content, so the two disagree on the
stored state. -/
theorem claim_C8_counterexample :
    (SemanticMemory.update c8State "m1" (some "gamma") none none).map (fun r => r.1.vector)
        = Except.ok c8State.vector
    ∧ (SemanticMemory.updateSpec c8Embed c8State "m1" (some "gamma") none none).1.vector
        ≠ c8State.vector := by
  exact ⟨by decide, by decide⟩

/-- C8 (amended): `SemanticMemory.update` never rewrites the stored vector —
neither on a content change (contrary to the claim's "re-embedded") nor on an
importance-only change; an importance-only update leaves the concept index
untouched and only replaces the in-memory record's importance; a
content-changing update removes the old concept-index entries for the item
(words of the old content that do not reappear no longer map to it) and
re-indexes the new content (every word of length > 2 of the new content maps
to it); an out-of-range importance makes the zod validation of
`createMemoryItem` throw, so the in-range hypotheses delimit the updates
that return. -/
theorem claim_C8 (st : SemState) (id : String) (memory : MemoryItem)
    (hlook : st.memories.lookup id = some memory) :
    (∀ (c? : Option String) (imp? : Option Rat) (md? : Option (List (String × Json))),
        (SemanticMemory.updateState (SemanticMemory.update st id c? imp? md?)).vector
          = st.vector)
    ∧ (∀ imp : Rat, 0 ≤ imp → imp ≤ 1 →
        (SemanticMemory.update st id none (some imp) none).map
            (fun r => (r.1.conceptIndex, r.2))
          = Except.ok (st.conceptIndex, true)
        ∧ (SemanticMemory.update st id none (some imp) none).map
            (fun r => oget r.1.memories id)
          = Except.ok (some { memory with importance := imp }))
    ∧ (∀ (c : String) (imp? : Option Rat) (md? : Option (List (String × Json))),
        c ≠ "" →
        0 ≤ imp?.getD memory.importance → imp?.getD memory.importance ≤ 1 →
        IndexWF st.conceptIndex →
        (∀ w, w ∈ splitWsJS (toLowerJS c) → 2 < w.length →
          memory.id ∈ idsOf (SemanticMemory.updateState
            (SemanticMemory.update st id (some c) imp? md?)).conceptIndex w)
        ∧ (∀ w, w ∉ splitWsJS (toLowerJS c) →
            w ∈ splitWsJS (toLowerJS memory.content) →
            memory.id ∉ idsOf (SemanticMemory.updateState
              (SemanticMemory.update st id (some c) imp? md?)).conceptIndex w)) := by
  refine ⟨?_, ?_, ?_⟩
  · intro c? imp? md?
    by_cases hcond : (imp?.getD memory.importance < 0 ∨ 1 < imp?.getD memory.importance)
    · simp [SemanticMemory.update, SemanticMemory.updateState, hlook, hcond]
    · simp [SemanticMemory.update, SemanticMemory.updateState, hlook, hcond]
  · intro imp h0 h1
    have hok : ¬(imp < 0 ∨ 1 < imp) := by
      rw [not_or]
      exact ⟨not_lt.mpr h0, not_lt.mpr h1⟩
    constructor
    · simp [SemanticMemory.update, hlook, hok, Except.map]
    · simp [SemanticMemory.update, hlook, hok, Except.map, omerge, oget_oset_self]
  · intro c imp? md? hc h0 h1 hwf
    have hct : (decide (c ≠ "")) = true := by simpa using hc
    have hok : ¬(imp?.getD memory.importance < 0 ∨ 1 < imp?.getD memory.importance) := by
      rw [not_or]
      exact ⟨not_lt.mpr h0, not_lt.mpr h1⟩
    have hupd : (SemanticMemory.updateState
          (SemanticMemory.update st id (some c) imp? md?)).conceptIndex
        = SemanticMemory.indexConcepts
            (SemanticMemory.removeFromIndex st.conceptIndex memory)
            { memory with
              content := c
              importance := imp?.getD memory.importance
              metadata := omerge memory.metadata (md?.getD []) } := by
      simp [SemanticMemory.update, SemanticMemory.updateState, hlook, hct, hok]
    constructor
    · intro w hw hlen
      rw [hupd]
      unfold SemanticMemory.indexConcepts
      exact mem_addFold_of_mem memory.id w _ _ hw hlen
    · intro w hnw how
      rw [hupd]
      unfold SemanticMemory.indexConcepts
      have h1 : memory.id ∉
          idsOf (SemanticMemory.removeFromIndex st.conceptIndex memory) w := by
        unfold SemanticMemory.removeFromIndex
        exact not_mem_removeFold memory.id w _ _ hwf how
      intro hm
      apply h1
      simpa [idsOf, oget_addFold_ne memory.id w _ _ hnw] using hm

theorem claim_C8_witness :
    (SemanticMemory.updateState
        (SemanticMemory.update c8State "m1" (some "gamma delta") none none)).vector
      = c8State.vector
    ∧ c8Item.id ∈ idsOf (SemanticMemory.updateState
        (SemanticMemory.update c8State "m1" (some "gamma delta") none none)).conceptIndex
        "gamma"
    ∧ c8Item.id ∉ idsOf (SemanticMemory.updateState
        (SemanticMemory.update c8State "m1" (some "gamma delta") none none)).conceptIndex
        "alpha" := by
  have h := claim_C8 c8State "m1" c8Item (by decide)
  have h3 := h.2.2 "gamma delta" none none (by decide) (by decide) (by decide)
    ⟨by decide, by decide⟩
  exact ⟨h.1 (some "gamma delta") none none,
    h3.1 "gamma" (by decide) (by decide),
    h3.2 "alpha" (by decide) (by decide)⟩

/-! ## Payload round-trip lemmas (claims C7 and C10) -/

/-- Keys that the add-path payload literals bind themselves (plus the
`added_at` stamp of `addVectors`); theorems about the round trip hypothesize
that user metadata stays clear of them, since a colliding spread key would
overwrite the canonical field. -/
def payloadReserved : List String :=
  ["memory_id", "user_id", "memory_type", "session_id", "content", "importance",
    "timestamp", "added_at"]

theorem omerge_nil_of_nodup {α : Type} (m : List (String × α))
    (h : (m.map Prod.fst).Nodup) : omerge [] m = m := by
  simpa using omerge_append [] m (by simpa using h)

theorem oset_append_left {α : Type} (l1 l2 : List (String × α)) (k : String) (v : α)
    (h : k ∈ l1.map Prod.fst) : oset (l1 ++ l2) k v = oset l1 k v ++ l2 := by
  induction l1 with
  | nil => simp at h
  | cons p rest ih =>
    obtain ⟨k', v'⟩ := p
    by_cases hk : k' = k
    · simp [oset, hk]
    · simp only [List.map_cons, List.mem_cons] at h
      rcases h with he | hm

      · exact absurd he.symm hk
      · simp [oset, hk, ih hm]

/-- The key list of the episodic add-payload under the freshness
hypotheses. -/
theorem episodicPayload_eq (item : MemoryItem)
    (hnd : (item.metadata.map Prod.fst).Nodup)
    (hres : ∀ p ∈ item.metadata, p.1 ∉ payloadReserved) :
    episodicPayload item =
      [("memory_id", Json.str item.id), ("user_id", Json.str item.userId),
        ("memory_type", Json.str "episodic"),
        ("session_id", Json.str (episodicSessionId item)),
        ("content", Json.str item.content), ("importance", Json.num item.importance),
        ("timestamp", Json.num item.timestamp)] ++ item.metadata := by
  apply omerge_append
  rw [List.nodup_append]
  refine ⟨?_, hnd, ?_⟩
  · simp only [List.map_cons, List.map_nil]
    decide
  · intro a ha hb
    obtain ⟨p, hp, hpa⟩ := List.mem_map.mp hb
    refine absurd ?_ (hres p hp)
    rw [hpa]
    simp only [List.map_cons, List.map_nil, List.mem_cons, List.not_mem_nil, or_false] at ha
    rcases ha with rfl | rfl | rfl | rfl | rfl | rfl | rfl <;> decide

theorem semanticPayload_eq (item : MemoryItem)
    (hnd : (item.metadata.map Prod.fst).Nodup)
    (hres : ∀ p ∈ item.metadata, p.1 ∉ payloadReserved) :
    semanticPayload item =
      [("memory_id", Json.str item.id), ("user_id", Json.str item.userId),
        ("memory_type", Json.str "semantic"),
        ("content", Json.str item.content), ("importance", Json.num item.importance),
        ("timestamp", Json.num item.timestamp)] ++ item.metadata := by
  apply omerge_append
  rw [List.nodup_append]
  refine ⟨?_, hnd, ?_⟩
  · simp only [List.map_cons, List.map_nil]
    decide
  · intro a ha hb
    obtain ⟨p, hp, hpa⟩ := List.mem_map.mp hb
    refine absurd ?_ (hres p hp)
    rw [hpa]
    simp only [List.map_cons, List.map_nil, List.mem_cons, List.not_mem_nil, or_false] at ha
    rcases ha with rfl | rfl | rfl | rfl | rfl | rfl <;> decide

theorem episodicPayload_keys_nodup (item : MemoryItem)
    (hnd : (item.metadata.map Prod.fst).Nodup)
    (hres : ∀ p ∈ item.metadata, p.1 ∉ payloadReserved) :
    ((episodicPayload item).map Prod.fst).Nodup := by
  rw [episodicPayload_eq item hnd hres, List.map_append, List.nodup_append]
  refine ⟨?_, hnd, ?_⟩
  · simp only [List.map_cons, List.map_nil]
    decide
  · intro a ha hb
    obtain ⟨p, hp, hpa⟩ := List.mem_map.mp hb
    refine absurd ?_ (hres p hp)
    rw [hpa]
    simp only [List.map_cons, List.map_nil, List.mem_cons, List.not_mem_nil, or_false] at ha
    rcases ha with rfl | rfl | rfl | rfl | rfl | rfl | rfl <;> decide

/-- The full payload persisted for an episodic item: `addVectors` overwrites
`timestamp` in place with the insertion time and appends `added_at`. -/
theorem addVectors_episodic_eq (item : MemoryItem) (now : Rat) (iso : String)
    (hnd : (item.metadata.map Prod.fst).Nodup)
    (hres : ∀ p ∈ item.metadata, p.1 ∉ payloadReserved) :
    addVectorsPayload (episodicPayload item) now iso =
      ([("memory_id", Json.str item.id), ("user_id", Json.str item.userId),
        ("memory_type", Json.str "episodic"),
        ("session_id", Json.str (episodicSessionId item)),
        ("content", Json.str item.content), ("importance", Json.num item.importance),
        ("timestamp", Json.num now)] ++ item.metadata) ++
        [("added_at", Json.str iso)] := by
  have hpe := episodicPayload_eq item hnd hres
  have hnodup := episodicPayload_keys_nodup item hnd hres
  unfold addVectorsPayload
  rw [omerge_nil_of_nodup _ hnodup, hpe]
  rw [oset_append_left _ _ "timestamp" _
    (by simp only [List.map_cons, List.map_nil]; decide)]
  have hb : oset
      [("memory_id", Json.str item.id), ("user_id", Json.str item.userId),
        ("memory_type", Json.str "episodic"),
        ("session_id", Json.str (episodicSessionId item)),
        ("content", Json.str item.content), ("importance", Json.num item.importance),
        ("timestamp", Json.num item.timestamp)] "timestamp" (Json.num now)
      = [("memory_id", Json.str item.id), ("user_id", Json.str item.userId),
        ("memory_type", Json.str "episodic"),
        ("session_id", Json.str (episodicSessionId item)),
        ("content", Json.str item.content), ("importance", Json.num item.importance),
        ("timestamp", Json.num now)] := by
    simp [oset]
  rw [hb]
  have hfresh : "added_at" ∉
      (([("memory_id", Json.str item.id), ("user_id", Json.str item.userId),
        ("memory_type", Json.str "episodic"),
        ("session_id", Json.str (episodicSessionId item)),
        ("content", Json.str item.content), ("importance", Json.num item.importance),
        ("timestamp", Json.num now)] ++ item.metadata).map Prod.fst) := by
    rw [List.map_append, List.mem_append]
    rintro (h1 | h2)
    · revert h1
      simp only [List.map_cons, List.map_nil]
      decide
    · obtain ⟨p, hp, hpa⟩ := List.mem_map.mp h2
      exact hres p hp (by rw [hpa]; decide)
  rw [oset_fresh _ _ _ hfresh]

theorem known_sub_reserved : ∀ a ∈ knownFields, a ∈ payloadReserved := by decide

/-- Rebuilding an episodic item from its persisted payload: the canonical
fields round-trip, the timestamp comes back as the `addVectors` write time,
and `session_id`, the user metadata and `added_at` are re-homed under
`metadata`. -/
theorem rebuild_episodic_roundtrip (item : MemoryItem) (now fb : Rat) (iso : String)
    (hnd : (item.metadata.map Prod.fst).Nodup)
    (hres : ∀ p ∈ item.metadata, p.1 ∉ payloadReserved)
    (hid : item.id ≠ "") (hc : item.content ≠ "") (hnow : now ≠ 0) :
    rebuildFromPayload "episodic" fb (addVectorsPayload (episodicPayload item) now iso)
      = some { id := item.id, content := item.content, memoryType := "episodic",
               userId := item.userId, timestamp := now, importance := item.importance,
               metadata := ("session_id", Json.str (episodicSessionId item)) ::
                 (item.metadata ++ [("added_at", Json.str iso)]) } := by
  rw [addVectors_episodic_eq item now iso hnd hres]
  have hm1 : "memory_id" ∈ knownFields := by decide
  have hm2 : "user_id" ∈ knownFields := by decide
  have hm3 : "memory_type" ∈ knownFields := by decide
  have hm4 : "session_id" ∉ knownFields := by decide
  have hm5 : "content" ∈ knownFields := by decide
  have hm6 : "importance" ∈ knownFields := by decide
  have hm7 : "timestamp" ∈ knownFields := by decide
  have hm8 : "added_at" ∉ knownFields := by decide
  have hmd2 : List.filter (fun p => !decide (p.1 ∈ knownFields)) item.metadata
      = item.metadata := by
    rw [List.filter_eq_self]
    intro p hp
    have hpr := hres p hp
    simp only [Bool.not_eq_true', decide_eq_false_iff_not]
    exact fun hmem => hpr (known_sub_reserved _ hmem)
  unfold rebuildFromPayload
  simp only [List.cons_append, List.nil_append]
  simp [oget, hid, hc, hnow, List.filter_append, List.filter_cons]
  simp [hm1, hm2, hm3, hm4, hm5, hm6, hm7, hm8, hmd2]

theorem semanticPayload_keys_nodup (item : MemoryItem)
    (hnd : (item.metadata.map Prod.fst).Nodup)
    (hres : ∀ p ∈ item.metadata, p.1 ∉ payloadReserved) :
    ((semanticPayload item).map Prod.fst).Nodup := by
  rw [semanticPayload_eq item hnd hres, List.map_append, List.nodup_append]
  refine ⟨?_, hnd, ?_⟩
  · simp only [List.map_cons, List.map_nil]
    decide
  · intro a ha hb
    obtain ⟨p, hp, hpa⟩ := List.mem_map.mp hb
    refine absurd ?_ (hres p hp)
    rw [hpa]
    simp only [List.map_cons, List.map_nil, List.mem_cons, List.not_mem_nil, or_false] at ha
    rcases ha with rfl | rfl | rfl | rfl | rfl | rfl <;> decide

/-- The full payload persisted for a semantic item: as for the episodic tier,
but with no `session_id` field. -/
theorem addVectors_semantic_eq (item : MemoryItem) (now : Rat) (iso : String)
    (hnd : (item.metadata.map Prod.fst).Nodup)
    (hres : ∀ p ∈ item.metadata, p.1 ∉ payloadReserved) :
    addVectorsPayload (semanticPayload item) now iso =
      ([("memory_id", Json.str item.id), ("user_id", Json.str item.userId),
        ("memory_type", Json.str "semantic"),
        ("content", Json.str item.content), ("importance", Json.num item.importance),
        ("timestamp", Json.num now)] ++ item.metadata) ++
        [("added_at", Json.str iso)] := by
  have hpe := semanticPayload_eq item hnd hres
  have hnodup := semanticPayload_keys_nodup item hnd hres
  unfold addVectorsPayload
  rw [omerge_nil_of_nodup _ hnodup, hpe]
  rw [oset_append_left _ _ "timestamp" _
    (by simp only [List.map_cons, List.map_nil]; decide)]
  have hb : oset
      [("memory_id", Json.str item.id), ("user_id", Json.str item.userId),
        ("memory_type", Json.str "semantic"),
        ("content", Json.str item.content), ("importance", Json.num item.importance),
        ("timestamp", Json.num item.timestamp)] "timestamp" (Json.num now)
      = [("memory_id", Json.str item.id), ("user_id", Json.str item.userId),
        ("memory_type", Json.str "semantic"),
        ("content", Json.str item.content), ("importance", Json.num item.importance),
        ("timestamp", Json.num now)] := by
    simp [oset]
  rw [hb]
  have hfresh : "added_at" ∉
      (([("memory_id", Json.str item.id), ("user_id", Json.str item.userId),
        ("memory_type", Json.str "semantic"),
        ("content", Json.str item.content), ("importance", Json.num item.importance),
        ("timestamp", Json.num now)] ++ item.metadata).map Prod.fst) := by
    rw [List.map_append, List.mem_append]
    rintro (h1 | h2)
    · revert h1
      simp only [List.map_cons, List.map_nil]
      decide
    · obtain ⟨p, hp, hpa⟩ := List.mem_map.mp h2
      exact hres p hp (by rw [hpa]; decide)
  rw [oset_fresh _ _ _ hfresh]

/-- Rebuilding a semantic item from its persisted payload: the canonical
fields round-trip, the timestamp comes back as the `addVectors` write time,
and the user metadata and `added_at` are re-homed under `metadata`. -/
theorem rebuild_semantic_roundtrip (item : MemoryItem) (now fb : Rat) (iso : String)
    (hnd : (item.metadata.map Prod.fst).Nodup)
    (hres : ∀ p ∈ item.metadata, p.1 ∉ payloadReserved)
    (hid : item.id ≠ "") (hc : item.content ≠ "") (hnow : now ≠ 0) :
    rebuildFromPayload "semantic" fb (addVectorsPayload (semanticPayload item) now iso)
      = some { id := item.id, content := item.content, memoryType := "semantic",
               userId := item.userId, timestamp := now, importance := item.importance,
               metadata := item.metadata ++ [("added_at", Json.str iso)] } := by
  rw [addVectors_semantic_eq item now iso hnd hres]
  have hm1 : "memory_id" ∈ knownFields := by decide
  have hm2 : "user_id" ∈ knownFields := by decide
  have hm3 : "memory_type" ∈ knownFields := by decide
  have hm5 : "content" ∈ knownFields := by decide
  have hm6 : "importance" ∈ knownFields := by decide
  have hm7 : "timestamp" ∈ knownFields := by decide
  have hm8 : "added_at" ∉ knownFields := by decide
  have hmd2 : List.filter (fun p => !decide (p.1 ∈ knownFields)) item.metadata
      = item.metadata := by
    rw [List.filter_eq_self]
    intro p hp
    have hpr := hres p hp
    simp only [Bool.not_eq_true', decide_eq_false_iff_not]
    exact fun hmem => hpr (known_sub_reserved _ hmem)
  unfold rebuildFromPayload
  simp only [List.cons_append, List.nil_append]
  simp [oget, hid, hc, hnow, List.filter_append, List.filter_cons]
  simp [hm1, hm2, hm3, hm5, hm6, hm7, hm8, hmd2]

/-- A concrete item for the round-trip witnesses: user metadata with one
fresh key. -/
def rtItem : MemoryItem :=
  { id := "e1", content := "hello", memoryType := "episodic", userId := "u1",
    timestamp := 111, importance := 1, metadata := [("topic", Json.str "kb")] }

/-- The same item routed to the semantic tier. -/
def rtItemS : MemoryItem := { rtItem with memoryType := "semantic" }

/-- C10: every `QdrantVectorStore.addVectors` write sets the persisted payload
field `timestamp` to the wall-clock insertion time `now` (for any metadata
object), overwriting the creation timestamp that the episodic tier placed in
the payload; consequently an item rebuilt from the persisted payload after a
restart carries the vector-write time `now` as its timestamp, not the
original `item.timestamp`. -/
theorem claim_C10 (item : MemoryItem) (md : List (String × Json)) (now fb : Rat)
    (iso iso2 : String)
    (hnd : (item.metadata.map Prod.fst).Nodup)
    (hres : ∀ p ∈ item.metadata, p.1 ∉ payloadReserved)
    (hid : item.id ≠ "") (hc : item.content ≠ "") (hnow : now ≠ 0) :
    oget (addVectorsPayload md now iso2) "timestamp" = some (Json.num now)
    ∧ oget (episodicPayload item) "timestamp" = some (Json.num item.timestamp)
    ∧ rebuildFromPayload "episodic" fb (addVectorsPayload (episodicPayload item) now iso)
        = some { id := item.id, content := item.content, memoryType := "episodic",
                 userId := item.userId, timestamp := now, importance := item.importance,
                 metadata := ("session_id", Json.str (episodicSessionId item)) ::
                   (item.metadata ++ [("added_at", Json.str iso)]) } := by
  refine ⟨?_, ?_, rebuild_episodic_roundtrip item now fb iso hnd hres hid hc hnow⟩
  · unfold addVectorsPayload
    rw [oget_oset_ne _ _ _ _ (by decide)]
    exact oget_oset_self _ _ _
  · rw [episodicPayload_eq item hnd hres]
    simp [oget]

theorem claim_C10_witness :
    oget (addVectorsPayload [("k", Json.null)] 222 "t0") "timestamp" = some (Json.num 222)
    ∧ oget (episodicPayload rtItem) "timestamp" = some (Json.num rtItem.timestamp)
    ∧ rebuildFromPayload "episodic" 5
        (addVectorsPayload (episodicPayload rtItem) 222 "2026-01-01T00:00:00.000Z")
        = some { id := rtItem.id, content := rtItem.content, memoryType := "episodic",
                 userId := rtItem.userId, timestamp := 222, importance := rtItem.importance,
                 metadata := ("session_id", Json.str (episodicSessionId rtItem)) ::
                   (rtItem.metadata ++
                     [("added_at", Json.str "2026-01-01T00:00:00.000Z")]) } :=
  claim_C10 rtItem [("k", Json.null)] 222 5 "2026-01-01T00:00:00.000Z" "t0"
    (by decide) (by decide) (by decide) (by decide) (by decide)

/-- C7: an item previously added to episodic or semantic memory with vector
storage enabled, later dropped from the in-memory map, and hit again by a
retrieve ANN search, comes back equal to the original in `id`, `content`,
`userId`, `importance` and `memoryType` (the tier an item is routed to is
named by its `memoryType`, so the tier tag the rebuilt item carries is the
original field); payload keys outside `knownFields` — the user metadata,
`added_at`, and for the episodic tier `session_id` — are re-homed under
`metadata`; and the item is tagged with the similarity score and
`source = "vector"` (via `taggedVector`) and re-inserted into the in-memory
map. -/
theorem claim_C7 (item : MemoryItem) (now score fb : Rat) (iso : String)
    (hnd : (item.metadata.map Prod.fst).Nodup)
    (hres : ∀ p ∈ item.metadata, p.1 ∉ payloadReserved)
    (hid : item.id ≠ "") (hc : item.content ≠ "") (hnow : now ≠ 0) :
    (item.memoryType = "episodic" →
      processVectorHits item.memoryType fb none none
          [⟨score, addVectorsPayload (episodicPayload item) now iso⟩] [] []
        = ([taggedVector
              { id := item.id, content := item.content, memoryType := item.memoryType,
                userId := item.userId, timestamp := now, importance := item.importance,
                metadata := ("session_id", Json.str (episodicSessionId item)) ::
                  (item.metadata ++ [("added_at", Json.str iso)]) } score],
           [(item.id,
             { id := item.id, content := item.content, memoryType := item.memoryType,
               userId := item.userId, timestamp := now, importance := item.importance,
               metadata := ("session_id", Json.str (episodicSessionId item)) ::
                 (item.metadata ++ [("added_at", Json.str iso)]) })]))
    ∧ (item.memoryType = "semantic" →
      processVectorHits item.memoryType fb none none
          [⟨score, addVectorsPayload (semanticPayload item) now iso⟩] [] []
        = ([taggedVector
              { id := item.id, content := item.content, memoryType := item.memoryType,
                userId := item.userId, timestamp := now, importance := item.importance,
                metadata := item.metadata ++ [("added_at", Json.str iso)] } score],
           [(item.id,
             { id := item.id, content := item.content, memoryType := item.memoryType,
               userId := item.userId, timestamp := now, importance := item.importance,
               metadata := item.metadata ++ [("added_at", Json.str iso)] })]))
    ∧ List.Disjoint (item.metadata.map Prod.fst) knownFields
    ∧ item.metadata ⊆ ("session_id", Json.str (episodicSessionId item)) ::
        (item.metadata ++ [("added_at", Json.str iso)])
    ∧ item.metadata ⊆ item.metadata ++ [("added_at", Json.str iso)] := by
  refine ⟨?_, ?_, ?_, ?_, ?_⟩
  · intro hmt
    rw [hmt]
    have hrb := rebuild_episodic_roundtrip item now fb iso hnd hres hid hc hnow
    have hmid : oget (addVectorsPayload (episodicPayload item) now iso) "memory_id"
        = some (Json.str item.id) := by
      rw [addVectors_episodic_eq item now iso hnd hres]
      simp [oget]
    simp [processVectorHits, hmid, hrb, hid, minImpActive, timeRangeExcludes, oset]
  · intro hmt
    rw [hmt]
    have hrb := rebuild_semantic_roundtrip item now fb iso hnd hres hid hc hnow
    have hmid : oget (addVectorsPayload (semanticPayload item) now iso) "memory_id"
        = some (Json.str item.id) := by
      rw [addVectors_semantic_eq item now iso hnd hres]
      simp [oget]
    simp [processVectorHits, hmid, hrb, hid, minImpActive, timeRangeExcludes, oset]
  · intro a ha hb
    obtain ⟨p, hp, hpa⟩ := List.mem_map.mp ha
    exact hres p hp (by rw [hpa]; exact known_sub_reserved a hb)
  · intro p hp
    exact List.mem_cons_of_mem _ (List.mem_append_left _ hp)
  · intro p hp
    exact List.mem_append_left _ hp

theorem claim_C7_witness :
    processVectorHits rtItem.memoryType 5 none none
        [⟨7, addVectorsPayload (episodicPayload rtItem) 222 "t1"⟩] [] []
      = ([taggedVector
            { id := rtItem.id, content := rtItem.content, memoryType := rtItem.memoryType,
              userId := rtItem.userId, timestamp := 222, importance := rtItem.importance,
              metadata := ("session_id", Json.str (episodicSessionId rtItem)) ::
                (rtItem.metadata ++ [("added_at", Json.str "t1")]) } 7],
         [(rtItem.id,
           { id := rtItem.id, content := rtItem.content, memoryType := rtItem.memoryType,
             userId := rtItem.userId, timestamp := 222, importance := rtItem.importance,
             metadata := ("session_id", Json.str (episodicSessionId rtItem)) ::
               (rtItem.metadata ++ [("added_at", Json.str "t1")]) })])
    ∧ processVectorHits rtItemS.memoryType 5 none none
        [⟨7, addVectorsPayload (semanticPayload rtItemS) 222 "t1"⟩] [] []
      = ([taggedVector
            { id := rtItemS.id, content := rtItemS.content,
              memoryType := rtItemS.memoryType,
              userId := rtItemS.userId, timestamp := 222, importance := rtItemS.importance,
              metadata := rtItemS.metadata ++ [("added_at", Json.str "t1")] } 7],
         [(rtItemS.id,
           { id := rtItemS.id, content := rtItemS.content,
             memoryType := rtItemS.memoryType,
             userId := rtItemS.userId, timestamp := 222, importance := rtItemS.importance,
             metadata := rtItemS.metadata ++ [("added_at", Json.str "t1")] })])
    ∧ List.Disjoint (rtItem.metadata.map Prod.fst) knownFields
    ∧ rtItem.metadata ⊆ ("session_id", Json.str (episodicSessionId rtItem)) ::
        (rtItem.metadata ++ [("added_at", Json.str "t1")])
    ∧ rtItemS.metadata ⊆ rtItemS.metadata ++ [("added_at", Json.str "t1")] := by
  have hE := claim_C7 rtItem 222 7 5 "t1"
    (by decide) (by decide) (by decide) (by decide) (by decide)
  have hS := claim_C7 rtItemS 222 7 5 "t1"
    (by decide) (by decide) (by decide) (by decide) (by decide)
  exact ⟨hE.1 (by decide), hS.2.1 (by decide), hE.2.2.1, hE.2.2.2.1, hS.2.2.2.2⟩

end WAgent
